import Mathlib

/-!
Verification of the whitespace core and pipeline boundary of
metalsmith-optimize-html.

The development shallow-embeds the string transforms of
`src/optimizers/whitespace.js` and `src/utils/content-processor.js`
(plus the comment optimizer built by `createRegexOptimizer`) over
`List Char`.  Each JavaScript regex operation is translated into an
explicit scanner with the exact backtracking semantics of the original
pattern; the notes next to each definition record the regex it embeds.

JS `\s` also matches some non-ASCII space characters; the embedding uses
the ASCII whitespace set, which is what every tag name, placeholder and
claim input here exercises.  Case-insensitive (`i` flag) matching is
embedded as ASCII case folding for the same reason.
-/

set_option maxRecDepth 8000

abbrev Str := List Char

def str (s : String) : Str := s.toList

/-- ASCII part of the JS `\s` class: space, tab, LF, VT, FF, CR. -/
def isWs (c : Char) : Bool :=
  c == ' ' || c == '\t' || c == '\n' || c == '\r' || c == '\x0B' || c == '\x0C'

/-- ASCII lower-casing, the case folding used for the `i` regex flag here. -/
def lowerC (c : Char) : Char :=
  if 'A' ≤ c && c ≤ 'Z' then Char.ofNat (c.toNat + 32) else c

/-- Case-insensitive character comparison. -/
def eqCI (a b : Char) : Bool := lowerC a == lowerC b

/-- Does `s` start with `pat`, case-insensitively? -/
def startsWithCI : Str → Str → Bool
  | [], _ => true
  | _ :: _, [] => false
  | p :: ps, c :: cs => eqCI p c && startsWithCI ps cs

/-- Strip the exact prefix `p` from `s`. -/
def chop : Str → Str → Option Str
  | [], s => some s
  | _ :: _, [] => none
  | p :: ps, c :: cs => if p = c then chop ps cs else none

theorem chop_eq {p s r : Str} (h : chop p s = some r) : s = p ++ r := by
  induction p generalizing s with
  | nil => simpa [chop] using h
  | cons x xs ih =>
    cases s with
    | nil => simp [chop] at h
    | cons c cs =>
      by_cases hx : x = c
      · subst hx
        simp only [chop, if_pos rfl] at h
        simpa using ih h
      · simp [chop, hx] at h

def isDigit (c : Char) : Bool := '0' ≤ c && c ≤ '9'

/-- Decimal value of a digit string (as JS would key the placeholder map). -/
def digitsToNat (ds : Str) : Nat :=
  ds.foldl (fun a c => 10 * a + (c.toNat - 48)) 0

def digitChar0 (d : Nat) : Char :=
  if d = 0 then '0' else if d = 1 then '1' else if d = 2 then '2'
  else if d = 3 then '3' else if d = 4 then '4' else if d = 5 then '5'
  else if d = 6 then '6' else if d = 7 then '7' else if d = 8 then '8' else '9'

def natDigitsF : Nat → Nat → Str → Str
  | 0, _, acc => acc
  | fuel + 1, n, acc =>
    if n = 0 then acc
    else natDigitsF fuel (n / 10) (digitChar0 (n % 10) :: acc)

/-- Canonical decimal rendering of a natural number, as `${index}` prints it.
The first argument of `natDigitsF` is fuel that makes the recursion
structural (so the kernel can evaluate it); `n` itself always suffices. -/
def natDigits (n : Nat) : Str :=
  if n = 0 then ['0'] else natDigitsF n n []

def kPRESERVE : Str := str "PRESERVE"
def kINLINE : Str := str "INLINE"
def kEXCLUDE : Str := str "EXCLUDE"

/-- The placeholder token `___<KIND>_<INDEX>___`. -/
def phTok (kind : Str) (i : Nat) : Str :=
  str "___" ++ kind ++ '_' :: (natDigits i ++ str "___")

/-- Match the regex `___(?:K1|K2|…)_\d+___` at the head of `s`: the kind that
matched, the (greedily taken) digit characters, and the rest of `s` after the
match.  Alternatives are tried in the regex's order. -/
def tokAt (kinds : List Str) (s : Str) : Option (Str × Str × Str) :=
  (chop (str "___") s).bind fun s1 =>
    kinds.findSome? fun k =>
      (chop (k ++ ['_']) s1).bind fun s2 =>
        let ds := s2.takeWhile isDigit
        if ds.isEmpty then none
        else (chop (str "___") (s2.dropWhile isDigit)).map fun rest => (k, ds, rest)

/-- Does `s` contain a match of `___(?:K1|K2|…)_\d+___` anywhere? -/
def containsTok (kinds : List Str) : Str → Bool
  | [] => false
  | c :: cs => (tokAt kinds (c :: cs)).isSome || containsTok kinds cs

/-- The double-processing guard's pattern, `___(?:PRESERVE|INLINE)_\d+___`
(`whitespace.js` line 33). -/
def guardHit (s : Str) : Bool := containsTok [kPRESERVE, kINLINE] s

/-- The inline callback's skip pattern `___(?:PRESERVE|INLINE|EXCLUDE)_\d+___`
(`whitespace.js` line 101). -/
def skipHit (s : Str) : Bool := containsTok [kPRESERVE, kINLINE, kEXCLUDE] s

/-- Split at the first `>`: `toGt s = some (a, b)` when `s = a ++ '>' :: b`
with `a` free of `>`.  This is how `[^>]*>` consumes an opening tag's
attribute region. -/
def toGt : Str → Option (Str × Str)
  | [] => none
  | c :: cs =>
    if c = '>' then some ([], cs)
    else (toGt cs).map fun p => (c :: p.1, p.2)

theorem toGt_eq {s a b : Str} (h : toGt s = some (a, b)) :
    s = a ++ '>' :: b := by
  induction s generalizing a b with
  | nil => simp [toGt] at h
  | cons c cs ih =>
    rw [toGt] at h
    split at h
    · rename_i hc
      obtain ⟨h1, h2⟩ := Prod.mk.injEq .. ▸ Option.some.inj h
      subst h1; subst h2; simp [hc]
    · cases hg : toGt cs with
      | none => rw [hg] at h; simp at h
      | some p =>
        rw [hg] at h
        obtain ⟨h1, h2⟩ := Prod.mk.injEq .. ▸ Option.some.inj h
        subst h1; subst h2
        simpa using ih hg

/-- Find the first position where `pat` matches case-insensitively:
`findCI pat s = some (a, b)` splits `s` as `a ++ b` with `b` starting with a
CI-match of `pat` and no earlier CI-match inside `a`. -/
def findCI (pat : Str) : Str → Option (Str × Str)
  | [] => if pat.isEmpty then some ([], []) else none
  | c :: cs =>
    if startsWithCI pat (c :: cs) then some ([], c :: cs)
    else (findCI pat cs).map fun p => (c :: p.1, p.2)

theorem findCI_eq {pat s a b : Str} (h : findCI pat s = some (a, b)) :
    s = a ++ b := by
  induction s generalizing a b with
  | nil =>
    rw [findCI] at h
    split at h
    · obtain ⟨h1, h2⟩ := Prod.mk.injEq .. ▸ Option.some.inj h
      subst h1; subst h2; rfl
    · simp at h
  | cons c cs ih =>
    rw [findCI] at h
    split at h
    · obtain ⟨h1, h2⟩ := Prod.mk.injEq .. ▸ Option.some.inj h
      subst h1; subst h2; rfl
    · cases hg : findCI pat cs with
      | none => rw [hg] at h; simp at h
      | some p =>
        rw [hg] at h
        obtain ⟨h1, h2⟩ := Prod.mk.injEq .. ▸ Option.some.inj h
        subst h1; subst h2
        simpa using ih hg

/-- One attempt, at the head of `s`, of the preservation/exclusion pattern
`<(tag1|tag2|…)[^>]*>[\s\S]*?</\N>` with the `i` flag: the whole match and
the rest of `s`.  Alternative tag names are tried in list order, each with
the full continuation: attributes run to the first `>`, then the content is
the lazy stretch up to the first CI-occurrence of the close tag built from
the captured tag characters. -/
def tryTagAt (tags : List Str) (s : Str) : Option (Str × Str) :=
  match s with
  | [] => none
  | c :: s1 =>
    if c = '<' then
      tags.findSome? fun t =>
        if startsWithCI t s1 then
          match toGt (s1.drop t.length) with
          | none => none
          | some (attrs, afterGt) =>
            match findCI ('<' :: '/' :: (s1.take t.length ++ ['>'])) afterGt with
            | none => none
            | some (content, fromClose) =>
              let closeLen := (s1.take t.length).length + 3
              some ('<' :: (s1.take t.length ++ attrs ++ '>' ::
                      (content ++ fromClose.take closeLen)),
                    fromClose.drop closeLen)
        else none
    else none

theorem findSome_ex {α β : Type} {l : List α} {f : α → Option β} {b : β}
    (h : l.findSome? f = some b) : ∃ a, a ∈ l ∧ f a = some b := by
  induction l with
  | nil => simp [List.findSome?] at h
  | cons x xs ih =>
    rw [List.findSome?] at h
    cases hx : f x with
    | some v =>
      rw [hx] at h
      exact ⟨x, List.mem_cons_self x xs, hx.trans h⟩
    | none =>
      rw [hx] at h
      obtain ⟨a, ha, hfa⟩ := ih h
      exact ⟨a, List.mem_cons_of_mem x ha, hfa⟩

theorem tryTagAt_split {tags : List Str} {s m rest : Str}
    (h : tryTagAt tags s = some (m, rest)) :
    s = m ++ rest ∧ rest.length < s.length := by
  cases s with
  | nil => simp [tryTagAt] at h
  | cons c s1 =>
    rw [tryTagAt] at h
    split at h
    · rename_i hc
      subst hc
      obtain ⟨t, -, ht⟩ := findSome_ex h
      split at ht
      · split at ht
        · simp at ht
        · rename_i attrs afterGt hg
          split at ht
          · simp at ht
          · rename_i content fromClose hf
            simp only [Option.some.injEq, Prod.mk.injEq] at ht
            obtain ⟨hm, hr⟩ := ht
            have hga := toGt_eq hg
            have hfa := findCI_eq hf
            have h2 : afterGt.length < (s1.drop t.length).length := by
              rw [hga]; simp only [List.length_append, List.length_cons]; omega
            have h3 : (s1.drop t.length).length ≤ s1.length := by simp
            have h1 : fromClose.length ≤ afterGt.length := by rw [hfa]; simp
            constructor
            · rw [← hm, ← hr]
              conv_lhs =>
                rw [(List.take_append_drop t.length s1).symm, hga, hfa,
                  (List.take_append_drop ((s1.take t.length).length + 3) fromClose).symm]
              simp
            · rw [← hr]
              have h4 : (fromClose.drop ((s1.take t.length).length + 3)).length ≤
                  fromClose.length := by
                rw [List.length_drop]; omega
              simp only [List.length_cons]
              omega
      · simp at ht
    · simp at h

/-- The scanning global replace for the preservation/exclusion regex: each
non-overlapping left-to-right match is appended to the record and replaced
by a fresh `___<kind>_<index>___` placeholder (`whitespace.js` lines 77–81,
`content-processor.js` lines 43–46).  The fuel argument only makes the
recursion structural; the text's length always suffices, which is what the
`extractGo` wrapper passes. -/
def extractGoF (tags : List Str) (kind : Str) : Nat → Str → List Str → Str × List Str
  | 0, s, acc => (s, acc)
  | fuel + 1, s, acc =>
    match s with
    | [] => ([], acc)
    | c :: cs =>
      match tryTagAt tags (c :: cs) with
      | some (m, rest) =>
        let p := extractGoF tags kind fuel rest (acc ++ [m])
        (phTok kind acc.length ++ p.1, p.2)
      | none =>
        let p := extractGoF tags kind fuel cs acc
        (c :: p.1, p.2)

def extractGo (tags : List Str) (kind : Str) (s : Str) (acc : List Str) : Str × List Str :=
  extractGoF tags kind s.length s acc

theorem extractGoF_nil (tags : List Str) (kind : Str) (fuel : Nat) (acc : List Str) :
    extractGoF tags kind fuel [] acc = ([], acc) := by
  cases fuel <;> rfl

theorem extractGoF_fuel (tags : List Str) (kind : Str) : ∀ f1 f2 s acc,
    s.length ≤ f1 → s.length ≤ f2 →
    extractGoF tags kind f1 s acc = extractGoF tags kind f2 s acc := by
  intro f1
  induction f1 with
  | zero =>
    intro f2 s acc h1 _
    have : s = [] := by
      cases s with
      | nil => rfl
      | cons c cs => simp at h1
    subst this
    rw [extractGoF_nil, extractGoF_nil]
  | succ f ih =>
    intro f2 s acc h1 h2
    cases s with
    | nil => rw [extractGoF_nil, extractGoF_nil]
    | cons c cs =>
      cases f2 with
      | zero => simp at h2
      | succ g =>
        rw [extractGoF, extractGoF]
        cases htm : tryTagAt tags (c :: cs) with
        | some p =>
          obtain ⟨m, rest⟩ := p
          have hr := (tryTagAt_split htm).2
          simp only [List.length_cons] at h1 h2 hr
          dsimp only
          rw [ih g rest (acc ++ [m]) (by omega) (by omega)]
        | none =>
          simp only [List.length_cons] at h1 h2
          dsimp only
          rw [ih g cs acc (by omega) (by omega)]

theorem extractGo_nil (tags : List Str) (kind : Str) (acc : List Str) :
    extractGo tags kind [] acc = ([], acc) := rfl

theorem extractGo_some {tags : List Str} {c : Char} {cs m rest : Str}
    (kind : Str) (acc : List Str)
    (h : tryTagAt tags (c :: cs) = some (m, rest)) :
    extractGo tags kind (c :: cs) acc =
      (phTok kind acc.length ++ (extractGo tags kind rest (acc ++ [m])).1,
        (extractGo tags kind rest (acc ++ [m])).2) := by
  have hr := (tryTagAt_split h).2
  simp only [List.length_cons] at hr
  rw [extractGo]
  simp only [List.length_cons]
  rw [extractGoF, h]
  simp only
  rw [extractGoF_fuel tags kind cs.length rest.length rest (acc ++ [m]) (by omega)
    (Nat.le_refl _)]
  rfl

theorem extractGo_none {tags : List Str} {c : Char} {cs : Str}
    (kind : Str) (acc : List Str)
    (h : tryTagAt tags (c :: cs) = none) :
    extractGo tags kind (c :: cs) acc =
      (c :: (extractGo tags kind cs acc).1, (extractGo tags kind cs acc).2) := by
  rw [extractGo]
  simp only [List.length_cons]
  rw [extractGoF, h]
  rfl

def extractTags (tags : List Str) (kind : Str) (s : Str) : Str × List Str :=
  extractGo tags kind s []

theorem dropWhile_len_le (p : Char → Bool) (l : Str) :
    (l.dropWhile p).length ≤ l.length := by
  induction l with
  | nil => simp
  | cons c cs ih =>
    rw [List.dropWhile]
    split
    · exact Nat.le_trans ih (by simp)
    · simp

/-- Collapse every maximal whitespace run to a single space (`\s+` → `' '`):
the flag records whether the scanner is inside a run it has already
emitted a space for. -/
def collapseGo : Bool → Str → Str
  | _, [] => []
  | inWs, c :: cs =>
    if isWs c then
      if inWs then collapseGo true cs else ' ' :: collapseGo true cs
    else c :: collapseGo false cs

def collapseWsStr (s : Str) : Str := collapseGo false s

/-- JS `String.prototype.trim` on the ASCII whitespace set. -/
def trimStr (s : Str) : Str :=
  ((s.dropWhile isWs).reverse.dropWhile isWs).reverse

/-- `content.replace(/\s+/g, ' ').trim()` (`whitespace.js` line 106). -/
def normalizeContent (s : Str) : Str := trimStr (collapseWsStr s)

/-- One match of the inline pattern
`(\s*)(<(a|span|…)[^>]*>)([^<]*(?:(?!</\3)[\s\S])*?)(</\3>)(\s*)`:
the six captured pieces and the rest of the text. -/
structure IM where
  lead : Str
  openT : Str
  tagC : Str
  content : Str
  closeT : Str
  trail : Str
  rest : Str

/-- The tempered content-and-close step of the inline pattern: the lazy
`([^<]*(?:(?!</\3)[\s\S])*?)` runs to the first CI-occurrence of `</TAG`;
the match then succeeds exactly when that occurrence continues with `>`
(otherwise the negative lookahead has pinned the scan and the whole
alternative fails).  Returns (content, close tag as matched, rest). -/
def findCloseT (tagC : Str) (s : Str) : Option (Str × Str × Str) :=
  match findCI ('<' :: '/' :: tagC) s with
  | none => none
  | some (content, fromC) =>
    match fromC.drop (2 + tagC.length) with
    | [] => none
    | c :: rest =>
      if c = '>' then some (content, fromC.take (2 + tagC.length) ++ ['>'], rest)
      else none

/-- One attempt of the inline-element pattern at the head of `s`
(`whitespace.js` lines 85–92): maximal leading whitespace, an opening inline
tag (alternatives in source order), attributes to the first `>`, tempered
content, the close tag, maximal trailing whitespace. -/
def tryInlineAt (tags : List Str) (s : Str) : Option IM :=
  match s.dropWhile isWs with
  | [] => none
  | c :: s1 =>
    if c = '<' then
      tags.findSome? fun t =>
        if startsWithCI t s1 then
          match toGt (s1.drop t.length) with
          | none => none
          | some (attrs, afterGt) =>
            match findCloseT (s1.take t.length) afterGt with
            | none => none
            | some (content, closeChars, afterClose) =>
              some ⟨s.takeWhile isWs, '<' :: (s1.take t.length ++ attrs ++ ['>']),
                    s1.take t.length, content, closeChars,
                    afterClose.takeWhile isWs, afterClose.dropWhile isWs⟩
        else none
    else none

theorem findCloseT_split {tagC s content closeChars rest : Str}
    (h : findCloseT tagC s = some (content, closeChars, rest)) :
    s = content ++ closeChars ++ rest ∧ 0 < closeChars.length := by
  rw [findCloseT] at h
  split at h
  · simp at h
  · rename_i content' fromC hf
    split at h
    · simp at h
    · rename_i c rest' hdrop
      split at h
      · rename_i hc
        subst hc
        simp only [Option.some.injEq, Prod.mk.injEq] at h
        obtain ⟨h1, h2, h3⟩ := h
        subst h1; subst h2; subst h3
        have hfa := findCI_eq hf
        constructor
        · rw [hfa]
          have : fromC = fromC.take (2 + tagC.length) ++ fromC.drop (2 + tagC.length) :=
            (List.take_append_drop _ fromC).symm
          conv_lhs => rw [this, hdrop]
          simp
        · simp
      · simp at h

theorem tryInlineAt_split {tags : List Str} {s : Str} {m : IM}
    (h : tryInlineAt tags s = some m) :
    s = m.lead ++ m.openT ++ m.content ++ m.closeT ++ m.trail ++ m.rest ∧
      m.rest.length < s.length ∧ ∃ o, m.openT = '<' :: o := by
  rw [tryInlineAt] at h
  split at h
  · simp at h
  · rename_i c s1 hdw
    split at h
    · rename_i hc
      subst hc
      obtain ⟨t, -, ht⟩ := findSome_ex h
      split at ht
      · split at ht
        · simp at ht
        · rename_i attrs afterGt hg
          split at ht
          · simp at ht
          · rename_i content closeChars afterClose hfc
            simp only [Option.some.injEq] at ht
            subst ht
            obtain ⟨hsp, hcl⟩ := findCloseT_split hfc
            have hga := toGt_eq hg
            have hs : s = s.takeWhile isWs ++ s.dropWhile isWs :=
              (List.takeWhile_append_dropWhile isWs s).symm
            have hac1 : (afterClose.takeWhile isWs) ++ (afterClose.dropWhile isWs)
                = afterClose := List.takeWhile_append_dropWhile isWs afterClose
            constructor
            · simp only
              conv_lhs => rw [hs, hdw]
              rw [(List.take_append_drop t.length s1).symm]
              conv_lhs => rw [hga, hsp]
              rw [← hac1]
              simp
            · constructor
              · simp only
                have h5 := dropWhile_len_le isWs afterClose
                have h6 : afterClose.length ≤ afterGt.length := by
                  rw [hsp]; simp only [List.length_append]; omega
                have h7 : afterGt.length < (s1.drop t.length).length := by
                  rw [hga]; simp only [List.length_append, List.length_cons]; omega
                have h8 : (s1.drop t.length).length ≤ s1.length := by simp
                have h9 : ('<' :: s1).length ≤ s.length := by
                  rw [hs, hdw]; simp
                simp only [List.length_cons] at h9
                omega
              · exact ⟨_, rfl⟩
      · simp at ht
    · simp at h

theorem digitChar0_spec : ∀ d : Nat, d < 10 →
    isDigit (digitChar0 d) = true ∧ (digitChar0 d).toNat = 48 + d := by decide

theorem natDigitsF_append (fuel : Nat) : ∀ (n : Nat) (acc : Str),
    natDigitsF fuel n acc = natDigitsF fuel n [] ++ acc := by
  induction fuel with
  | zero => intro n acc; simp [natDigitsF]
  | succ f ih =>
    intro n acc
    rw [natDigitsF, natDigitsF]
    by_cases hn : n = 0
    · simp [hn]
    · simp only [if_neg hn]
      rw [ih (n / 10) (digitChar0 (n % 10) :: acc), ih (n / 10) [digitChar0 (n % 10)]]
      simp

theorem natDigitsF_val (fuel : Nat) : ∀ n : Nat, n ≤ fuel →
    digitsToNat (natDigitsF fuel n []) = n := by
  induction fuel with
  | zero =>
    intro n hn
    have : n = 0 := by omega
    subst this
    simp [natDigitsF, digitsToNat]
  | succ f ih =>
    intro n hn
    by_cases hz : n = 0
    · subst hz; simp [natDigitsF, digitsToNat]
    · rw [natDigitsF]
      simp only [if_neg hz]
      rw [natDigitsF_append]
      have hlt : n / 10 < n := Nat.div_lt_self (by omega) (by omega)
      have hv := ih (n / 10) (by omega)
      have hd := (digitChar0_spec (n % 10) (Nat.mod_lt _ (by omega))).2
      rw [digitsToNat, List.foldl_append]
      rw [digitsToNat] at hv
      rw [hv]
      simp only [List.foldl_cons, List.foldl_nil, hd]
      omega

theorem natDigits_val (n : Nat) : digitsToNat (natDigits n) = n := by
  rw [natDigits]
  split
  · rename_i h; subst h; decide
  · exact natDigitsF_val n n (Nat.le_refl n)

theorem natDigitsF_digits (fuel : Nat) : ∀ (n : Nat), ∀ c ∈ natDigitsF fuel n [],
    isDigit c = true := by
  induction fuel with
  | zero => intro n c hc; simp [natDigitsF] at hc
  | succ f ih =>
    intro n c hc
    rw [natDigitsF] at hc
    by_cases hz : n = 0
    · simp [hz] at hc
    · simp only [if_neg hz] at hc
      rw [natDigitsF_append] at hc
      rcases List.mem_append.mp hc with h | h
      · exact ih (n / 10) c h
      · have hd := (digitChar0_spec (n % 10) (Nat.mod_lt _ (by omega))).1
        simp only [List.mem_singleton] at h
        rw [h]; exact hd

theorem natDigits_digits (n : Nat) : ∀ c ∈ natDigits n, isDigit c = true := by
  rw [natDigits]
  split
  · intro c hc; simp only [List.mem_singleton] at hc; rw [hc]; decide
  · exact natDigitsF_digits n n

theorem isDigit_ne_lt {c : Char} (h : isDigit c = true) : c ≠ '<' := by
  intro he
  subst he
  simp [isDigit] at h

/-- What the inline callback returns for a processed match: one space if the
leading whitespace was non-empty, the `___INLINE_<i>___` placeholder, one
space if the trailing whitespace was non-empty (`whitespace.js` 112–114). -/
def inlineRepl (lead trail : Str) (idx : Nat) : Str :=
  (if lead.isEmpty then [] else [' ']) ++ phTok kINLINE idx ++
    (if trail.isEmpty then [] else [' '])

/-- One global-replace pass of the inline pattern (`whitespace.js` 98–115):
scan left to right; a match whose content contains a placeholder is emitted
verbatim (the callback's skip), otherwise the normalized element is pushed
onto the record and the match is replaced; scanning resumes after the match
either way.  Fuel only makes the recursion structural; the text's length
always suffices and is what the `inlinePass` wrapper passes. -/
def inlinePassF (tags : List Str) : Nat → Str → List Str → Str × List Str
  | 0, s, acc => (s, acc)
  | fuel + 1, s, acc =>
    match s with
    | [] => ([], acc)
    | c :: cs =>
      match tryInlineAt tags (c :: cs) with
      | some m =>
        if skipHit m.content then
          let p := inlinePassF tags fuel m.rest acc
          (m.lead ++ m.openT ++ m.content ++ m.closeT ++ m.trail ++ p.1, p.2)
        else
          let p := inlinePassF tags fuel m.rest
            (acc ++ [m.openT ++ normalizeContent m.content ++ m.closeT])
          (inlineRepl m.lead m.trail acc.length ++ p.1, p.2)
      | none =>
        let p := inlinePassF tags fuel cs acc
        (c :: p.1, p.2)

def inlinePass (tags : List Str) (s : Str) (acc : List Str) : Str × List Str :=
  inlinePassF tags s.length s acc

theorem inlinePassF_nil (tags : List Str) (fuel : Nat) (acc : List Str) :
    inlinePassF tags fuel [] acc = ([], acc) := by
  cases fuel <;> rfl

theorem inlinePassF_fuel (tags : List Str) : ∀ f1 f2 s acc,
    s.length ≤ f1 → s.length ≤ f2 →
    inlinePassF tags f1 s acc = inlinePassF tags f2 s acc := by
  intro f1
  induction f1 with
  | zero =>
    intro f2 s acc h1 _
    have : s = [] := by
      cases s with
      | nil => rfl
      | cons c cs => simp at h1
    subst this
    rw [inlinePassF_nil, inlinePassF_nil]
  | succ f ih =>
    intro f2 s acc h1 h2
    cases s with
    | nil => rw [inlinePassF_nil, inlinePassF_nil]
    | cons c cs =>
      cases f2 with
      | zero => simp at h2
      | succ g =>
        rw [inlinePassF, inlinePassF]
        cases him : tryInlineAt tags (c :: cs) with
        | some m =>
          have hr := (tryInlineAt_split him).2.1
          simp only [List.length_cons] at h1 h2 hr
          dsimp only
          split
          · rw [ih g m.rest acc (by omega) (by omega)]
          · rw [ih g m.rest
              (acc ++ [m.openT ++ normalizeContent m.content ++ m.closeT])
              (by omega) (by omega)]
        | none =>
          simp only [List.length_cons] at h1 h2
          dsimp only
          rw [ih g cs acc (by omega) (by omega)]

theorem inlinePass_some_skip {tags : List Str} {c : Char} {cs : Str} {m : IM}
    (acc : List Str) (him : tryInlineAt tags (c :: cs) = some m)
    (hskip : skipHit m.content = true) :
    inlinePass tags (c :: cs) acc =
      (m.lead ++ m.openT ++ m.content ++ m.closeT ++ m.trail ++
        (inlinePass tags m.rest acc).1, (inlinePass tags m.rest acc).2) := by
  have hr := (tryInlineAt_split him).2.1
  simp only [List.length_cons] at hr
  rw [inlinePass]
  simp only [List.length_cons]
  rw [inlinePassF, him]
  dsimp only
  rw [if_pos hskip]
  rw [inlinePassF_fuel tags cs.length m.rest.length m.rest acc (by omega) (Nat.le_refl _)]
  rfl

theorem inlinePass_some_repl {tags : List Str} {c : Char} {cs : Str} {m : IM}
    (acc : List Str) (him : tryInlineAt tags (c :: cs) = some m)
    (hskip : skipHit m.content = false) :
    inlinePass tags (c :: cs) acc =
      (inlineRepl m.lead m.trail acc.length ++
        (inlinePass tags m.rest
          (acc ++ [m.openT ++ normalizeContent m.content ++ m.closeT])).1,
        (inlinePass tags m.rest
          (acc ++ [m.openT ++ normalizeContent m.content ++ m.closeT])).2) := by
  have hr := (tryInlineAt_split him).2.1
  simp only [List.length_cons] at hr
  rw [inlinePass]
  simp only [List.length_cons]
  rw [inlinePassF, him]
  dsimp only
  rw [if_neg (by rw [hskip]; exact Bool.false_ne_true)]
  rw [inlinePassF_fuel tags cs.length m.rest.length m.rest
    (acc ++ [m.openT ++ normalizeContent m.content ++ m.closeT]) (by omega) (Nat.le_refl _)]
  rfl

theorem inlinePass_none {tags : List Str} {c : Char} {cs : Str}
    (acc : List Str) (him : tryInlineAt tags (c :: cs) = none) :
    inlinePass tags (c :: cs) acc =
      (c :: (inlinePass tags cs acc).1, (inlinePass tags cs acc).2) := by
  rw [inlinePass]
  simp only [List.length_cons]
  rw [inlinePassF, him]
  rfl

def countLt (s : Str) : Nat := s.count '<'

theorem countLt_append (a b : Str) : countLt (a ++ b) = countLt a + countLt b := by
  simp [countLt, List.count_append]

theorem countLt_phTok_inline (i : Nat) : countLt (phTok kINLINE i) = 0 := by
  rw [countLt, List.count_eq_zero]
  intro hc
  rw [phTok] at hc
  rcases List.mem_append.mp hc with h1 | h2
  · rcases List.mem_append.mp h1 with h3 | h4
    · exact absurd h3 (by decide)
    · exact absurd h4 (by decide)
  · rcases List.mem_cons.mp h2 with h5 | h6
    · exact absurd h5 (by decide)
    · rcases List.mem_append.mp h6 with h7 | h8
      · exact isDigit_ne_lt (natDigits_digits i _ h7) rfl
      · exact absurd h8 (by decide)

theorem countLt_inlineRepl (lead trail : Str) (i : Nat) :
    countLt (inlineRepl lead trail i) = 0 := by
  rw [inlineRepl, countLt_append, countLt_append, countLt_phTok_inline]
  have h1 : countLt (if lead.isEmpty then ([] : Str) else [' ']) = 0 := by
    split <;> decide
  have h2 : countLt (if trail.isEmpty then ([] : Str) else [' ']) = 0 := by
    split <;> decide
  omega

theorem inlinePassF_count (tags : List Str) : ∀ (fuel : Nat) (s : Str) (acc : List Str),
    countLt (inlinePassF tags fuel s acc).1 ≤ countLt s ∧
      ((inlinePassF tags fuel s acc).1 ≠ s →
        countLt (inlinePassF tags fuel s acc).1 < countLt s) := by
  intro fuel
  induction fuel with
  | zero =>
    intro s acc
    constructor
    · exact Nat.le_refl _
    · intro h; exact absurd rfl h
  | succ f ih =>
    intro s acc
    cases s with
    | nil =>
      rw [inlinePassF_nil]
      exact ⟨Nat.le_refl _, fun h => absurd rfl h⟩
    | cons c cs =>
      rw [inlinePassF]
      cases him : tryInlineAt tags (c :: cs) with
      | some m =>
        obtain ⟨hs, -, o, ho⟩ := tryInlineAt_split him
        dsimp only
        split
        · rw [hs]
          simp only [countLt_append]
          have ihr := ih m.rest acc
          constructor
          · have := ihr.1; omega
          · intro hne
            have hne2 : (inlinePassF tags f m.rest acc).1 ≠ m.rest := by
              intro he
              apply hne
              rw [he]
            have := ihr.2 hne2
            omega
        · have hop : 0 < countLt m.openT := by
            rw [ho, countLt, List.count_cons]
            simp
          have ihr := ih m.rest
            (acc ++ [m.openT ++ normalizeContent m.content ++ m.closeT])
          rw [hs]
          simp only [countLt_append, countLt_inlineRepl]
          have := ihr.1
          exact ⟨by omega, fun _ => by omega⟩
      | none =>
        dsimp only
        have ihr := ih cs acc
        have h1 := ihr.1
        simp only [countLt, List.count_cons] at h1 ⊢
        constructor
        · split <;> omega
        · intro hne
          have hne2 : (inlinePassF tags f cs acc).1 ≠ cs := by
            intro he
            apply hne
            rw [he]
          have h3 := ihr.2 hne2
          simp only [countLt] at h3
          split <;> omega

theorem inlinePass_count (tags : List Str) (s : Str) (acc : List Str) :
    countLt (inlinePass tags s acc).1 ≤ countLt s ∧
      ((inlinePass tags s acc).1 ≠ s →
        countLt (inlinePass tags s acc).1 < countLt s) :=
  inlinePassF_count tags s.length s acc

/-- The do-while fixed-point loop over the inline pass (`whitespace.js`
95–116).  The source loop's only exit condition is `html === lastHtml`:
there is no maximum pass count.  The fuel only makes the recursion
structural: every changing pass strictly lowers the number of `<`
characters (`inlinePass_count`), so the `countLt s + 1` the `inlineLoop`
wrapper passes always reaches the fixed point (`inlineLoopF_fuel`). -/
def inlineLoopF (tags : List Str) : Nat → Str → List Str → Str × List Str
  | 0, s, acc => (s, acc)
  | fuel + 1, s, acc =>
    let p := inlinePass tags s acc
    if p.1 = s then p
    else inlineLoopF tags fuel p.1 p.2

def inlineLoop (tags : List Str) (s : Str) (acc : List Str) : Str × List Str :=
  inlineLoopF tags (countLt s + 1) s acc

theorem inlineLoopF_fuel (tags : List Str) : ∀ f1 f2 s acc,
    countLt s < f1 → countLt s < f2 →
    inlineLoopF tags f1 s acc = inlineLoopF tags f2 s acc := by
  intro f1
  induction f1 with
  | zero => intro f2 s acc h1 _; omega
  | succ f ih =>
    intro f2 s acc h1 h2
    cases f2 with
    | zero => omega
    | succ g =>
      rw [inlineLoopF, inlineLoopF]
      split
      · rfl
      · rename_i hne
        have hdec := (inlinePass_count tags s acc).2 hne
        exact ih g _ _ (by omega) (by omega)

theorem inlineLoop_eq (tags : List Str) (s : Str) (acc : List Str) :
    inlineLoop tags s acc =
      (if (inlinePass tags s acc).1 = s then inlinePass tags s acc
       else inlineLoop tags (inlinePass tags s acc).1 (inlinePass tags s acc).2) := by
  rw [inlineLoop, inlineLoopF]
  split
  · rfl
  · rename_i hne
    have hdec := (inlinePass_count tags s acc).2 hne
    rw [inlineLoop]
    exact inlineLoopF_fuel tags _ _ _ _ (by omega) (by omega)

/-- The body step of the split regex `(<\/?[^>]+>)`: `<`, an optional `/`
already consumed by the caller, then one or more non-`>` characters, then
`>`. -/
def tryBody (s : Str) : Option (Str × Str) :=
  let b := s.takeWhile (fun c => c != '>')
  if b.isEmpty then none
  else
    match s.dropWhile (fun c => c != '>') with
    | [] => none
    | c :: r2 => if c = '>' then some (b ++ ['>'], r2) else none

/-- A delimiter match of `(<\/?[^>]+>)` at the head of `s`.  `\/?` is tried
with the slash first and backtracks to the empty alternative (so `</>`
matches with body `/`). -/
def delimAt (s : Str) : Option (Str × Str) :=
  match s with
  | [] => none
  | c :: cs =>
    if c = '<' then
      match cs with
      | [] => none
      | c2 :: cs2 =>
        if c2 = '/' then
          match tryBody cs2 with
          | some (b, r) => some ('<' :: '/' :: b, r)
          | none =>
            match tryBody cs with
            | some (b, r) => some ('<' :: b, r)
            | none => none
        else
          match tryBody cs with
          | some (b, r) => some ('<' :: b, r)
          | none => none
    else none

theorem tryBody_split {s b r : Str} (h : tryBody s = some (b, r)) :
    s = b ++ r ∧ 0 < b.length := by
  rw [tryBody] at h
  split at h
  · simp at h
  · split at h
    · simp at h
    · rename_i c r2 hdw
      split at h
      · rename_i hc
        subst hc
        simp only [Option.some.injEq, Prod.mk.injEq] at h
        obtain ⟨h1, h2⟩ := h
        subst h1; subst h2
        constructor
        · conv_lhs => rw [(List.takeWhile_append_dropWhile (fun c => c != '>') s).symm]
          rw [hdw]
          simp
        · simp
      · simp at h

theorem delimAt_split {s tok rest : Str} (h : delimAt s = some (tok, rest)) :
    s = tok ++ rest ∧ 0 < tok.length := by
  rw [delimAt.eq_def] at h
  split at h
  · simp at h
  · rename_i c cs
    split at h
    · rename_i hc
      subst hc
      split at h
      · simp at h
      · rename_i c2 cs2
        split at h
        · rename_i hc2
          subst hc2
          split at h
          · rename_i b r htb
            simp only [Option.some.injEq, Prod.mk.injEq] at h
            obtain ⟨h1, h2⟩ := h
            subst h1; subst h2
            obtain ⟨hb, -⟩ := tryBody_split htb
            constructor
            · rw [hb]; rfl
            · simp
          · split at h
            · rename_i b r htb
              simp only [Option.some.injEq, Prod.mk.injEq] at h
              obtain ⟨h1, h2⟩ := h
              subst h1; subst h2
              obtain ⟨hb, -⟩ := tryBody_split htb
              constructor
              · rw [hb]; rfl
              · simp
            · simp at h
        · split at h
          · rename_i b r htb
            simp only [Option.some.injEq, Prod.mk.injEq] at h
            obtain ⟨h1, h2⟩ := h
            subst h1; subst h2
            obtain ⟨hb, -⟩ := tryBody_split htb
            constructor
            · rw [hb]; rfl
            · simp
          · simp at h
    · simp at h

/-- `html.split(/(<\/?[^>]+>)/g)` (`whitespace.js` line 120): the parts
alternate text, delimiter, text, …, beginning and ending with a (possibly
empty) text part.  Fuel only makes the recursion structural; the text's
length always suffices and is what the `splitDelims` wrapper passes. -/
def splitDelimsF : Nat → Str → List Str
  | 0, s => [s]
  | fuel + 1, s =>
    match s with
    | [] => [[]]
    | c :: cs =>
      match delimAt (c :: cs) with
      | some (tok, rest) => [] :: tok :: splitDelimsF fuel rest
      | none =>
        match splitDelimsF fuel cs with
        | [] => [[c]]
        | t :: ps => (c :: t) :: ps

def splitDelims (s : Str) : List Str := splitDelimsF s.length s

theorem splitDelimsF_nil (fuel : Nat) : splitDelimsF fuel [] = [[]] := by
  cases fuel <;> rfl

theorem splitDelimsF_fuel : ∀ f1 f2 s, s.length ≤ f1 → s.length ≤ f2 →
    splitDelimsF f1 s = splitDelimsF f2 s := by
  intro f1
  induction f1 with
  | zero =>
    intro f2 s h1 _
    have : s = [] := by
      cases s with
      | nil => rfl
      | cons c cs => simp at h1
    subst this
    rw [splitDelimsF_nil, splitDelimsF_nil]
  | succ f ih =>
    intro f2 s h1 h2
    cases s with
    | nil => rw [splitDelimsF_nil, splitDelimsF_nil]
    | cons c cs =>
      cases f2 with
      | zero => simp at h2
      | succ g =>
        rw [splitDelimsF, splitDelimsF]
        cases hd : delimAt (c :: cs) with
        | some p =>
          obtain ⟨tok, rest⟩ := p
          obtain ⟨hs, hl⟩ := delimAt_split hd
          have : rest.length ≤ cs.length := by
            have : (c :: cs).length = tok.length + rest.length := by
              rw [hs]; simp
            simp only [List.length_cons] at this h1 h2
            omega
          simp only [List.length_cons] at h1 h2
          dsimp only
          rw [ih g rest (by omega) (by omega)]
        | none =>
          simp only [List.length_cons] at h1 h2
          dsimp only
          rw [ih g cs (by omega) (by omega)]

theorem splitDelims_some {c : Char} {cs tok rest : Str}
    (hd : delimAt (c :: cs) = some (tok, rest)) :
    splitDelims (c :: cs) = [] :: tok :: splitDelims rest := by
  obtain ⟨hs, hl⟩ := delimAt_split hd
  have hlen : rest.length ≤ cs.length := by
    have : (c :: cs).length = tok.length + rest.length := by
      rw [hs]; simp
    simp only [List.length_cons] at this
    omega
  rw [splitDelims]
  simp only [List.length_cons]
  rw [splitDelimsF, hd]
  dsimp only
  rw [splitDelimsF_fuel cs.length rest.length rest (by omega) (Nat.le_refl _)]
  rfl

theorem splitDelims_none {c : Char} {cs : Str} (hd : delimAt (c :: cs) = none) :
    splitDelims (c :: cs) =
      (match splitDelims cs with
       | [] => [[c]]
       | t :: ps => (c :: t) :: ps) := by
  rw [splitDelims]
  simp only [List.length_cons]
  rw [splitDelimsF, hd]
  rfl

/-- STEP 3, the block text collapser (`whitespace.js` 118–129): split on
any-tag delimiters, keep parts that start with `<` unchanged, collapse and
trim the others, join, and trim the whole result. -/
def blockStep (s : Str) : Str :=
  trimStr (((splitDelims s).map fun p =>
    match p with
    | [] => []
    | c :: _ => if c = '<' then p else trimStr (collapseWsStr p)).join)

theorem tokAt_split {kinds : List Str} {s k ds rest : Str}
    (h : tokAt kinds s = some (k, ds, rest)) :
    s = str "___" ++ (k ++ ('_' :: (ds ++ (str "___" ++ rest)))) ∧
      rest.length < s.length ∧ k ∈ kinds ∧ ds ≠ [] ∧
      (∀ c ∈ ds, isDigit c = true) := by
  rw [tokAt] at h
  cases h1 : chop (str "___") s with
  | none => rw [h1] at h; simp at h
  | some s1 =>
    rw [h1] at h
    simp only [Option.some_bind] at h
    obtain ⟨kk, hkmem, hk⟩ := findSome_ex h
    cases h2 : chop (kk ++ ['_']) s1 with
    | none => rw [h2] at hk; simp at hk
    | some s2 =>
      rw [h2] at hk
      simp only [Option.some_bind] at hk
      split at hk
      · simp at hk
      · rename_i hne
        cases h3 : chop (str "___") (s2.dropWhile isDigit) with
        | none => rw [h3] at hk; simp at hk
        | some r =>
          rw [h3] at hk
          simp only [Option.map_some', Option.some.injEq, Prod.mk.injEq] at hk
          obtain ⟨hka, hkb, hkc⟩ := hk
          subst hka; subst hkb; subst hkc
          have e1 := chop_eq h1
          have e2 := chop_eq h2
          have e3 := chop_eq h3
          have e4 : s2 = s2.takeWhile isDigit ++ s2.dropWhile isDigit :=
            (List.takeWhile_append_dropWhile isDigit s2).symm
          refine ⟨?_, ?_, hkmem, ?_, ?_⟩
          · rw [e1, e2]
            conv_lhs => rw [e4, e3]
            simp
          · rw [e1, e2, e4, e3]
            have h3l : (str "___").length = 3 := by decide
            simp only [List.length_append, List.length_cons, h3l]
            omega
          · simpa [List.isEmpty_iff] using hne
          · intro c hc
            exact List.mem_takeWhile_imp hc

/-- The restoration map lookup (`whitespace.js` 136–151): the map's keys are
the canonically printed tokens, so a matched token addresses entry `i`
exactly when its digits are the canonical rendering of `i` and `i` is in
range; otherwise the lookup misses and the match is left as it was. -/
def mapLookup (pres inl : List Str) (k ds : Str) : Option Str :=
  if natDigits (digitsToNat ds) = ds then
    if k = kPRESERVE then pres.get? (digitsToNat ds)
    else if k = kINLINE then inl.get? (digitsToNat ds)
    else none
  else none

/-- STEP 4, the single-pass restoration
`result.replace(/___(?:PRESERVE|INLINE)_\d+___/g, …)` (`whitespace.js`
148–158): each matched token is replaced by its recorded content when the
map has it and left as-is otherwise; the scan continues after the match and
never rescans replaced text.  Fuel only makes the recursion structural; the
text's length always suffices and is what the `restoreGo` wrapper passes. -/
def restoreF (pres inl : List Str) : Nat → Str → Str
  | 0, s => s
  | fuel + 1, s =>
    match s with
    | [] => []
    | c :: cs =>
      match tokAt [kPRESERVE, kINLINE] (c :: cs) with
      | some (k, ds, rest) =>
        (match mapLookup pres inl k ds with
         | some v => v
         | none => str "___" ++ (k ++ ('_' :: (ds ++ str "___")))) ++
          restoreF pres inl fuel rest
      | none => c :: restoreF pres inl fuel cs

def restoreGo (pres inl : List Str) (s : Str) : Str := restoreF pres inl s.length s

theorem restoreF_nil (pres inl : List Str) (fuel : Nat) :
    restoreF pres inl fuel [] = [] := by
  cases fuel <;> rfl

theorem restoreF_fuel (pres inl : List Str) : ∀ f1 f2 s, s.length ≤ f1 →
    s.length ≤ f2 → restoreF pres inl f1 s = restoreF pres inl f2 s := by
  intro f1
  induction f1 with
  | zero =>
    intro f2 s h1 _
    have : s = [] := by
      cases s with
      | nil => rfl
      | cons c cs => simp at h1
    subst this
    rw [restoreF_nil, restoreF_nil]
  | succ f ih =>
    intro f2 s h1 h2
    cases s with
    | nil => rw [restoreF_nil, restoreF_nil]
    | cons c cs =>
      cases f2 with
      | zero => simp at h2
      | succ g =>
        rw [restoreF, restoreF]
        cases ht : tokAt [kPRESERVE, kINLINE] (c :: cs) with
        | some p =>
          obtain ⟨k, ds, rest⟩ := p
          have hr := (tokAt_split ht).2.1
          simp only [List.length_cons] at h1 h2 hr
          dsimp only
          rw [ih g rest (by omega) (by omega)]
        | none =>
          simp only [List.length_cons] at h1 h2
          dsimp only
          rw [ih g cs (by omega) (by omega)]

theorem restoreGo_some {c : Char} {cs k ds rest : Str} (pres inl : List Str)
    (ht : tokAt [kPRESERVE, kINLINE] (c :: cs) = some (k, ds, rest)) :
    restoreGo pres inl (c :: cs) =
      (match mapLookup pres inl k ds with
       | some v => v
       | none => str "___" ++ (k ++ ('_' :: (ds ++ str "___")))) ++
        restoreGo pres inl rest := by
  have hr := (tokAt_split ht).2.1
  simp only [List.length_cons] at hr
  rw [restoreGo]
  simp only [List.length_cons]
  rw [restoreF, ht]
  dsimp only
  rw [restoreF_fuel pres inl cs.length rest.length rest (by omega) (Nat.le_refl _)]
  rfl

theorem restoreGo_none {c : Char} {cs : Str} (pres inl : List Str)
    (ht : tokAt [kPRESERVE, kINLINE] (c :: cs) = none) :
    restoreGo pres inl (c :: cs) = c :: restoreGo pres inl cs := by
  rw [restoreGo]
  simp only [List.length_cons]
  rw [restoreF, ht]
  rfl

/-- The fixed preserve tag list (`whitespace.js` 40–47); caller exclusions
are appended after it. -/
def preserveBase : List Str :=
  [str "pre", str "code", str "textarea", str "script", str "style"]

/-- The fixed inline tag list, in source order (`whitespace.js` 51–69). -/
def inlineTagsL : List Str :=
  [str "a", str "span", str "em", str "strong", str "b", str "i", str "u",
   str "s", str "small", str "mark", str "sub", str "sup", str "time",
   str "cite", str "abbr", str "label", str "svg"]

/-- `whitespaceOptimizer.optimize` (`whitespace.js` 31–161): the
double-processing guard, then preserve extraction, the inline fixed-point
loop, the block collapse, and placeholder restoration. -/
def whitespaceOptimize (excludeTags : List Str) (content : Str) : Str :=
  if guardHit content then content
  else
    let e1 := extractTags (preserveBase ++ excludeTags) kPRESERVE content
    let e2 := inlineLoop inlineTagsL e1.1 []
    restoreGo e1.2 e2.2 (blockStep e2.1)

/-- JS `GetSubstitution` for a string-pattern `String.prototype.replace`:
in the replacement string `$$` is a dollar, `$&` the matched text, a
dollar-backquote the text before the match, `$'` the text after it; with no
capture groups every other `$…` stays literal. -/
def jsSubGo (matched before after : Str) : Str → Str
  | [] => []
  | ['$'] => ['$']
  | '$' :: d :: r =>
    if d = '$' then '$' :: jsSubGo matched before after r
    else if d = '&' then matched ++ jsSubGo matched before after r
    else if d = Char.ofNat 96 then before ++ jsSubGo matched before after r
    else if d = '\'' then after ++ jsSubGo matched before after r
    else '$' :: d :: jsSubGo matched before after r
  | c :: r => c :: jsSubGo matched before after r

/-- `text.replace(pat, val)` with a plain-string pattern: replace the first
occurrence of `pat`, applying `$`-substitution to `val`
(`content-processor.js` line 53). -/
def replaceFirstGo (pat val : Str) (seen : Str) : Str → Str
  | [] => seen.reverse
  | c :: cs =>
    if pat.isPrefixOf (c :: cs) then
      seen.reverse ++
        jsSubGo pat seen.reverse ((c :: cs).drop pat.length) val ++
        (c :: cs).drop pat.length
    else replaceFirstGo pat val (c :: seen) cs

def replaceFirst (pat val s : Str) : Str := replaceFirstGo pat val [] s

/-- The (disabled) restoration validator (`content-processor.js` 11–25): it
returns `isValid: true` with no placeholders for every input. -/
structure VRes where
  isValid : Bool
  placeholders : List Str

def validatePlaceholderRestoration (_content : Str) : VRes :=
  { isValid := true, placeholders := [] }

/-- `processContent` (`content-processor.js` 34–69): carve caller-excluded
elements out before any optimizer runs, fold the optimizers over the text,
restore each `___EXCLUDE_<i>___` by a first-occurrence string replace in
index order, then run the (disabled) validator; an invalid validation would
raise, so the result is an `Except`. -/
def processContent (optimizers : List (Str → Str)) (excludeTags : List Str)
    (content : Str) : Except Str Str :=
  let result :=
    if excludeTags.isEmpty then
      optimizers.foldl (fun t f => f t) content
    else
      let e := extractTags excludeTags kEXCLUDE content
      let r := optimizers.foldl (fun t f => f t) e.1
      (List.range e.2.length).foldl
        (fun txt i => replaceFirst (phTok kEXCLUDE i) (e.2.getD i []) txt) r
  if (validatePlaceholderRestoration result).isValid then Except.ok result
  else Except.error (str "METALSMITH-OPTIMIZE-HTML: Placeholder restoration failed!")

/-- One comment match `<!--[\s\S]*?-->` at the head of `s`: the rest after
the lazy match. -/
def commentAt (s : Str) : Option Str :=
  (chop (str "<!--") s).bind fun s1 =>
    (findCI (str "-->") s1).map fun p => p.2.drop 3

theorem commentAt_len {s rest : Str} (h : commentAt s = some rest) :
    rest.length < s.length := by
  rw [commentAt] at h
  cases h1 : chop (str "<!--") s with
  | none => rw [h1] at h; simp at h
  | some s1 =>
    rw [h1] at h
    simp only [Option.some_bind] at h
    cases h2 : findCI (str "-->") s1 with
    | none => rw [h2] at h; simp at h
    | some p =>
      obtain ⟨inner, fromC⟩ := p
      rw [h2] at h
      simp only [Option.map_some', Option.some.injEq] at h
      subst h
      have e1 := chop_eq h1
      have e2 := findCI_eq h2
      have e3 : (fromC.drop 3).length = fromC.length - 3 := by simp
      have e4 : s.length = 4 + s1.length := by
        rw [e1, List.length_append]
        have : (str "<!--").length = 4 := by decide
        omega
      have e5 : s1.length = inner.length + fromC.length := by rw [e2]; simp
      omega

/-- The enabled path of the comment optimizer
(`comments.js`, `createRegexOptimizer`):
`content.replace(/<!--[\s\S]*?-->/g, '')`.  Fuel only makes the recursion
structural; the text's length always suffices and is what the
`commentRemove` wrapper passes. -/
def commentRemoveF : Nat → Str → Str
  | 0, s => s
  | fuel + 1, s =>
    match s with
    | [] => []
    | c :: cs =>
      match commentAt (c :: cs) with
      | some rest => commentRemoveF fuel rest
      | none => c :: commentRemoveF fuel cs

def commentRemove (s : Str) : Str := commentRemoveF s.length s

theorem chop_self (p r : Str) : chop p (p ++ r) = some r := by
  induction p with
  | nil => rfl
  | cons b bs ih => simp [chop, ih]

/-- Executable substring test (used to state byte-identical-appearance and
leftover-placeholder facts about concrete outputs). -/
def hasSub (pat : Str) : Str → Bool
  | [] => pat.isEmpty
  | c :: cs => (chop pat (c :: cs)).isSome || hasSub pat cs

theorem hasSub_of_split (pat : Str) : ∀ x y : Str,
    hasSub pat (x ++ (pat ++ y)) = true := by
  intro x
  induction x with
  | nil =>
    intro y
    simp only [List.nil_append]
    cases pat with
    | nil =>
      cases y with
      | nil => rfl
      | cons d ds => simp [hasSub, chop]
    | cons a as =>
      rw [List.cons_append, hasSub, ← List.cons_append, chop_self]
      simp
  | cons c cs ih =>
    intro y
    rw [List.cons_append, hasSub, ih]
    simp

/-- C4: for every input that already contains a token of the core's own
placeholder grammar, `collapseWhitespace` returns the input unchanged (a
no-op guard, not an error), performing no extraction or collapsing. -/
theorem c4_guard_noop (s : Str) (excl : List Str) (h : guardHit s = true) :
    whitespaceOptimize excl s = s := by
  rw [whitespaceOptimize, if_pos h]

theorem c4_guard_noop_witness :
    guardHit (str "x ___PRESERVE_0___ y") = true ∧
      whitespaceOptimize [] (str "x ___PRESERVE_0___ y") = str "x ___PRESERVE_0___ y" :=
  ⟨by decide, c4_guard_noop (str "x ___PRESERVE_0___ y") [] (by decide)⟩

/-- C5 counterexample: a document whose final text still contains the
placeholder-shaped token `___PRESERVE_1___` (not inside any quoted-string
context — the text has no quotes) for which the pipeline returns the
corrupted markup silently with `Except.ok` instead of surfacing an error. -/
theorem c5_counterexample :
    processContent [whitespaceOptimize []] [] (str "___PRESERVE_1<pre>\t</pre>") =
      Except.ok (str "___PRESERVE_1___PRESERVE_0___") ∧
      hasSub (str "___PRESERVE_1___") (str "___PRESERVE_1___PRESERVE_0___") = true :=
  ⟨by rfl, by decide⟩

/-- C5 amended: the restoration validator is disabled — it reports
`isValid` with no placeholders for every document — so `processContent`
never raises; a leftover placeholder is returned silently in the output. -/
theorem c5_validation_disabled :
    (∀ c : Str, (validatePlaceholderRestoration c).isValid = true ∧
        (validatePlaceholderRestoration c).placeholders = []) ∧
      (∀ (opts : List (Str → Str)) (excl : List Str) (content : Str),
        ∃ r : Str, processContent opts excl content = Except.ok r) := by
  constructor
  · intro c
    exact ⟨rfl, rfl⟩
  · intro opts excl content
    rw [processContent]
    exact ⟨_, rfl⟩

/-- C6: the inline do-while loop's pass behavior.  Each changing pass
strictly lowers the count of `<` characters (hence of literal inline tag
occurrences), which is the loop's only termination argument: the source has
no maximum pass count, and on the input below the loop runs two changing
passes before reaching its fixed point, so its pass count is input-dependent
rather than capped. -/
theorem c6_pass_behavior :
    (∀ (s : Str) (acc : List Str), (inlinePass inlineTagsL s acc).1 ≠ s →
        countLt (inlinePass inlineTagsL s acc).1 < countLt s) ∧
      (inlinePass inlineTagsL (str "<b <i> x </i></bz>y</b>") []).1 ≠
        str "<b <i> x </i></bz>y</b>" ∧
      (inlinePass inlineTagsL
          (inlinePass inlineTagsL (str "<b <i> x </i></bz>y</b>") []).1
          (inlinePass inlineTagsL (str "<b <i> x </i></bz>y</b>") []).2).1 ≠
        (inlinePass inlineTagsL (str "<b <i> x </i></bz>y</b>") []).1 := by
  refine ⟨fun s acc => (inlinePass_count inlineTagsL s acc).2, ?_, ?_⟩
  · decide
  · decide

/-- C7 counterexample: on `"<span>  <em> hi </em>  there </span>"` the
first pass captures the outer `span` whole — the inline record holds a
single entry whose content keeps the inner `em` literally and carries no
placeholder — so the inner element is not normalized on an earlier pass and
the outer element's captured content is not placeholder-bearing. -/
theorem c7_counterexample :
    (inlineLoop inlineTagsL (str "<span>  <em> hi </em>  there </span>") []).2 =
        [str "<span><em> hi </em> there</span>"] ∧
      (str "<em>hi</em>") ∉
        (inlineLoop inlineTagsL (str "<span>  <em> hi </em>  there </span>") []).2 ∧
      hasSub (str "___INLINE_0___")
        (str "<span><em> hi </em> there</span>") = false := by
  refine ⟨by decide, by decide, by decide⟩

/-- C7 amended: an inline element nested (under a different tag name)
inside another inline element is captured together with its parent on the
first pass that matches the parent, its markup kept literally inside the
parent's whitespace-collapsed interior; the example resolves with no
placeholder tokens left in the final output. -/
theorem c7_nested_inline :
    whitespaceOptimize [] (str "<span>  <em> hi </em>  there </span>") =
        str "<span><em> hi </em> there</span>" ∧
      guardHit (whitespaceOptimize []
        (str "<span>  <em> hi </em>  there </span>")) = false ∧
      (inlineLoop inlineTagsL (str "<span>  <em> hi </em>  there </span>") []).2 =
        [str "<span><em> hi </em> there</span>"] := by
  refine ⟨by decide, by decide, by decide⟩

/-- C1 counterexample: in
`"<pre> a <code> b </pre>   c   </code>"` the `code` element has a matching
close tag, yet its interior `" b </pre>   c   "` is not byte-identical in
the output — the `pre` extraction consumes the overlapping `<code>` opening
and the leftover `"   c   "` is collapsed. -/
theorem c1_counterexample :
    whitespaceOptimize [] (str "<pre> a <code> b </pre>   c   </code>") =
        str "<pre> a <code> b </pre> c</code>" ∧
      hasSub (str "<code> b </pre>   c   </code>")
        (whitespaceOptimize [] (str "<pre> a <code> b </pre>   c   </code>")) = false := by
  refine ⟨by decide, by decide⟩

/-- C10 counterexample: an input that contains the EXCLUDE token
`___EXCLUDE_0___` and no PRESERVE/INLINE token, on which the core's output
no longer contains that EXCLUDE token: the literal `PRESERVE_1` fragment
next to the token aliases with the second emitted preserve placeholder and
restoration consumes the token's trailing underscores. -/
theorem c10_counterexample :
    guardHit (str "<pre>a</pre>___EXCLUDE_0___PRESERVE_1<pre>b</pre>") = false ∧
      hasSub (phTok kEXCLUDE 0)
        (str "<pre>a</pre>___EXCLUDE_0___PRESERVE_1<pre>b</pre>") = true ∧
      hasSub (phTok kEXCLUDE 0)
        (whitespaceOptimize []
          (str "<pre>a</pre>___EXCLUDE_0___PRESERVE_1<pre>b</pre>")) = false := by
  refine ⟨by decide, by decide, by decide⟩

/-- No three consecutive underscores anywhere in the text. -/
def und3Free : Str → Bool
  | c1 :: c2 :: c3 :: rest =>
    if c1 = '_' ∧ c2 = '_' ∧ c3 = '_' then false
    else und3Free (c2 :: c3 :: rest)
  | _ => true

theorem und3Free_tail {c : Char} {cs : Str} (h : und3Free (c :: cs) = true) :
    und3Free cs = true := by
  match cs with
  | [] => rfl
  | [d] => rfl
  | d :: e :: rest =>
    rw [und3Free] at h
    split at h
    · exact absurd h (by simp)
    · exact h

theorem und3Free_no_split {x : Str} (h : und3Free x = true) :
    ∀ u v : Str, x = u ++ ('_' :: '_' :: '_' :: v) → False := by
  induction x with
  | nil =>
    intro u v he
    exact absurd he.symm (by simp)
  | cons c cs ih =>
    intro u v he
    cases u with
    | nil =>
      simp only [List.nil_append] at he
      rw [he, und3Free] at h
      split at h
      · exact absurd h (by simp)
      · rename_i hcon
        exact hcon ⟨rfl, rfl, rfl⟩
    | cons d u' =>
      simp only [List.cons_append, List.cons.injEq] at he
      exact ih (und3Free_tail h) u' v he.2

theorem getLast?_ne_of_append {x u : Str} {c : Char}
    (h : x.getLast? ≠ some '_') (he : x = u ++ '_' :: c :: []) (hc : c = '_') :
    False := by
  apply h
  rw [he, hc]
  have : u ++ '_' :: '_' :: [] = (u ++ ['_']) ++ ['_'] := by simp
  rw [this, List.getLast?_concat]

theorem takeWhile_all_append (p : Char → Bool) (xs : Str) (d : Char) (r : Str)
    (hall : ∀ c ∈ xs, p c = true) (hd : p d = false) :
    (xs ++ d :: r).takeWhile p = xs ∧ (xs ++ d :: r).dropWhile p = d :: r := by
  induction xs with
  | nil =>
    simp only [List.nil_append]
    rw [List.takeWhile, List.dropWhile, hd]
    exact ⟨rfl, rfl⟩
  | cons x xs ih =>
    have hx : p x = true := hall x (List.mem_cons_self x xs)
    have ih2 := ih (fun c hc => hall c (List.mem_cons_of_mem x hc))
    simp only [List.cons_append]
    rw [List.takeWhile, List.dropWhile, hx]
    exact ⟨by rw [ih2.1], ih2.2⟩

theorem natDigits_ne_nil (n : Nat) : natDigits n ≠ [] := by
  intro h
  have hv := natDigits_val n
  rw [h] at hv
  simp [digitsToNat] at hv
  by_cases hz : n = 0
  · subst hz
    rw [natDigits] at h
    simp at h
  · exact hz hv.symm

/-- The restoration scanner matches an emitted placeholder exactly where it
stands. -/
theorem tokAt_self (k : Str) (hk : k = kPRESERVE ∨ k = kINLINE) (i : Nat) (b : Str) :
    tokAt [kPRESERVE, kINLINE] (phTok k i ++ b) =
      some (k, natDigits i, b) := by
  have hsh : phTok k i ++ b =
      str "___" ++ ((k ++ ['_']) ++ (natDigits i ++ ('_' :: '_' :: '_' :: b))) := by
    rw [phTok]
    simp [str]
  rw [tokAt, hsh, chop_self]
  simp only [Option.some_bind]
  have hdig := natDigits_digits i
  have htw := takeWhile_all_append isDigit (natDigits i) '_' ('_' :: '_' :: b)
    hdig (by decide)
  rcases hk with hk | hk
  · subst hk
    rw [List.findSome?]
    rw [chop_self, Option.some_bind]
    rw [htw.1, htw.2]
    have hne : (natDigits i).isEmpty = false := by
      cases hnd : natDigits i with
      | nil => exact absurd hnd (natDigits_ne_nil i)
      | cons x xs => rfl
    rw [hne]
    simp only [Bool.false_eq_true, if_false]
    have : chop (str "___") ('_' :: '_' :: '_' :: b) = some b := chop_self (str "___") b
    rw [this]
    rfl
  · subst hk
    rw [List.findSome?]
    have hne1 : chop (kPRESERVE ++ ['_'])
        ((kINLINE ++ ['_']) ++ (natDigits i ++ ('_' :: '_' :: '_' :: b))) = none := by
      have hs1 : (kINLINE ++ ['_']) ++ (natDigits i ++ ('_' :: '_' :: '_' :: b)) =
          'I' :: ((str "NLINE" ++ ['_']) ++ (natDigits i ++ ('_' :: '_' :: '_' :: b))) := by
        simp [kINLINE, str]
      have hP : kPRESERVE ++ ['_'] = 'P' :: (str "RESERVE" ++ ['_']) := by
        simp [kPRESERVE, str]
      rw [hs1, hP, chop, if_neg (by decide)]
    rw [hne1]
    simp only [Option.none_bind]
    rw [List.findSome?]
    rw [chop_self, Option.some_bind]
    rw [htw.1, htw.2]
    have hne : (natDigits i).isEmpty = false := by
      cases hnd : natDigits i with
      | nil => exact absurd hnd (natDigits_ne_nil i)
      | cons x xs => rfl
    rw [hne]
    simp only [Bool.false_eq_true, if_false]
    have hch : chop (str "___") ('_' :: '_' :: '_' :: b) = some b := chop_self (str "___") b
    rw [hch]
    rfl

theorem mapLookup_hit (pres inl : List Str) (i : Nat) (hi : i < pres.length) :
    mapLookup pres inl kPRESERVE (natDigits i) = some (pres.getD i []) := by
  rw [mapLookup, natDigits_val, if_pos rfl, if_pos rfl]
  rw [List.getD_eq_get?]
  cases hg : pres.get? i with
  | none =>
    rw [List.get?_eq_none] at hg
    omega
  | some v => rfl

/-- Scanning a cleanly-preceded emitted PRESERVE placeholder, the
restoration pass copies the prefix verbatim, substitutes the recorded
content, and continues after the token. -/
theorem restore_split (pres inl : List Str) (i : Nat) (hi : i < pres.length) :
    ∀ (a b : Str), und3Free a = true → a.getLast? ≠ some '_' →
    restoreGo pres inl (a ++ (phTok kPRESERVE i ++ b)) =
      a ++ (pres.getD i [] ++ restoreGo pres inl b) := by
  intro a
  induction a with
  | nil =>
    intro b _ _
    simp only [List.nil_append]
    have htok := tokAt_self kPRESERVE (Or.inl rfl) i b
    have hsh : phTok kPRESERVE i ++ b =
        (phTok kPRESERVE i ++ b).headD ' ' :: (phTok kPRESERVE i ++ b).tail := by
      cases h : phTok kPRESERVE i ++ b with
      | nil =>
        have : phTok kPRESERVE i = [] := (List.append_eq_nil.mp h).1
        rw [phTok] at this
        simp [str] at this
      | cons x xs => rfl
    rw [hsh] at htok ⊢
    rw [restoreGo_some pres inl htok, mapLookup_hit pres inl i hi]
  | cons c a' ih =>
    intro b hu hl
    have hnone : tokAt [kPRESERVE, kINLINE] (c :: (a' ++ (phTok kPRESERVE i ++ b))) = none := by
      cases ht : tokAt [kPRESERVE, kINLINE] (c :: (a' ++ (phTok kPRESERVE i ++ b))) with
      | none => rfl
      | some p =>
        exfalso
        obtain ⟨k, ds, rest⟩ := p
        obtain ⟨hsp, -, -⟩ := tokAt_split ht
        have hsh : str "___" ++ (k ++ ('_' :: (ds ++ (str "___" ++ rest)))) =
            '_' :: '_' :: '_' :: (k ++ ('_' :: (ds ++ (str "___" ++ rest)))) := rfl
        rw [hsh] at hsp
        have hc : c = '_' := (List.cons.inj hsp).1
        have hrest := (List.cons.inj hsp).2
        cases a' with
        | nil =>
          apply hl
          simp [hc]
        | cons d a'' =>
          simp only [List.cons_append] at hrest
          have hd : d = '_' := (List.cons.inj hrest).1
          have hrest2 := (List.cons.inj hrest).2
          cases a'' with
          | nil =>
            exact @getLast?_ne_of_append [c, d] [] '_' hl (by simp [hc, hd]) rfl
          | cons e a''' =>
            simp only [List.cons_append] at hrest2
            have he : e = '_' := (List.cons.inj hrest2).1
            exact und3Free_no_split hu [] a''' (by rw [hc, hd, he]; rfl)
    rw [List.cons_append, restoreGo_none pres inl hnone]
    have hu' : und3Free a' = true := und3Free_tail hu
    have hl' : a'.getLast? ≠ some '_' := by
      cases a' with
      | nil => simp
      | cons d a'' =>
        intro hcon
        apply hl
        rw [List.getLast?_cons_cons]
        exact hcon
    rw [ih b hu' hl']
    simp

/-- C1 amended: every preserve element actually captured by the extraction
scan (entry `i` of the preservation record) whose placeholder token stands
intact in the collapsed text reaching restoration — preceded by text with
no triple underscore that does not end in an underscore — is restored
byte-identically: the element's full matched markup, hence its interior,
appears verbatim in the core's output. -/
theorem c1_preserve_restored (s : Str) (excl : List Str) (a b : Str) (i : Nat)
    (hg : guardHit s = false)
    (hi : i < (extractTags (preserveBase ++ excl) kPRESERVE s).2.length)
    (hsplit : blockStep (inlineLoop inlineTagsL
        (extractTags (preserveBase ++ excl) kPRESERVE s).1 []).1 =
      a ++ (phTok kPRESERVE i ++ b))
    (ha1 : und3Free a = true) (ha2 : a.getLast? ≠ some '_') :
    ∃ x y : Str, whitespaceOptimize excl s =
      x ++ ((extractTags (preserveBase ++ excl) kPRESERVE s).2.getD i [] ++ y) := by
  refine ⟨a, restoreGo (extractTags (preserveBase ++ excl) kPRESERVE s).2
    (inlineLoop inlineTagsL (extractTags (preserveBase ++ excl) kPRESERVE s).1 []).2
    b, ?_⟩
  rw [whitespaceOptimize, if_neg (by rw [hg]; exact Bool.false_ne_true)]
  dsimp only
  rw [hsplit]
  exact restore_split _ _ i hi a b ha1 ha2

theorem c1_preserve_restored_witness :
    ∃ x y : Str,
      whitespaceOptimize [] (str "<div><pre>   keep   this   </pre></div>") =
        x ++ ((extractTags (preserveBase ++ []) kPRESERVE
          (str "<div><pre>   keep   this   </pre></div>")).2.getD 0 [] ++ y) :=
  c1_preserve_restored (str "<div><pre>   keep   this   </pre></div>") []
    (str "<div>") (str "</div>") 0 (by decide) (by decide) (by decide)
    (by decide) (by decide)

theorem ws_ne_lt {c : Char} (h : isWs c = true) : c ≠ '<' := by
  intro he; subst he; simp [isWs] at h

theorem ws_ne_und {c : Char} (h : isWs c = true) : c ≠ '_' := by
  intro he; subst he; simp [isWs] at h

theorem tokAt_none_head {kinds : List Str} {c : Char} {cs : Str} (h : c ≠ '_') :
    tokAt kinds (c :: cs) = none := by
  rw [tokAt]
  have : chop (str "___") (c :: cs) = none := by
    rw [show str "___" = '_' :: str "__" from rfl, chop, if_neg (fun he => h he.symm)]
  rw [this]
  rfl

theorem containsTok_no_und {kinds : List Str} {s : Str}
    (h : ∀ c ∈ s, c ≠ '_') : containsTok kinds s = false := by
  induction s with
  | nil => rfl
  | cons c cs ih =>
    rw [containsTok, tokAt_none_head (h c (List.mem_cons_self c cs))]
    simp only [Option.isSome_none, Bool.false_or]
    exact ih (fun d hd => h d (List.mem_cons_of_mem c hd))

theorem startsWithCI_cons_false {p c : Char} {ps cs : Str} (h : eqCI p c = false) :
    startsWithCI (p :: ps) (c :: cs) = false := by
  rw [startsWithCI, h]
  rfl

theorem tryTagAt_none_head {tags : List Str} {c : Char} {cs : Str} (h : c ≠ '<') :
    tryTagAt tags (c :: cs) = none := by
  rw [tryTagAt]
  exact if_neg h

theorem tryTagAt_none_tags {tags : List Str} {s1 : Str}
    (h : ∀ t ∈ tags, startsWithCI t s1 = false) :
    tryTagAt tags ('<' :: s1) = none := by
  rw [tryTagAt, if_pos rfl]
  induction tags with
  | nil => rfl
  | cons t ts ih =>
    rw [List.findSome?]
    rw [if_neg (by rw [h t (List.mem_cons_self t ts)]; exact Bool.false_ne_true)]
    exact ih (fun t' ht' => h t' (List.mem_cons_of_mem t ht'))

theorem extractGo_lit {tags : List Str} {kind : Str} {w : Str}
    (h : ∀ c ∈ w, c ≠ '<') : ∀ (rest : Str) (acc : List Str),
    extractGo tags kind (w ++ rest) acc =
      (w ++ (extractGo tags kind rest acc).1, (extractGo tags kind rest acc).2) := by
  induction w with
  | nil => intro rest acc; simp
  | cons c w' ih =>
    intro rest acc
    rw [List.cons_append,
      extractGo_none kind acc (tryTagAt_none_head (h c (List.mem_cons_self c w'))),
      ih (fun d hd => h d (List.mem_cons_of_mem c hd)) rest acc]
    simp

theorem extractGo_ltStep {tags : List Str} {kind : Str} {s1 : Str}
    (h : ∀ t ∈ tags, startsWithCI t s1 = false) (acc : List Str) :
    extractGo tags kind ('<' :: s1) acc =
      ('<' :: (extractGo tags kind s1 acc).1, (extractGo tags kind s1 acc).2) :=
  extractGo_none kind acc (tryTagAt_none_tags h)

theorem tryInlineAt_none_head {tags : List Str} {c : Char} {cs : Str}
    (h1 : isWs c = false) (h2 : c ≠ '<') :
    tryInlineAt tags (c :: cs) = none := by
  rw [tryInlineAt]
  rw [List.dropWhile]
  rw [h1]
  exact if_neg h2

theorem inlinePass_lit {tags : List Str} {w : Str}
    (h : ∀ c ∈ w, isWs c = false ∧ c ≠ '<') : ∀ (rest : Str) (acc : List Str),
    inlinePass tags (w ++ rest) acc =
      (w ++ (inlinePass tags rest acc).1, (inlinePass tags rest acc).2) := by
  induction w with
  | nil => intro rest acc; simp
  | cons c w' ih =>
    intro rest acc
    have hc := h c (List.mem_cons_self c w')
    rw [List.cons_append, inlinePass_none acc (tryInlineAt_none_head hc.1 hc.2),
      ih (fun d hd => h d (List.mem_cons_of_mem c hd)) rest acc]
    simp

theorem inlinePass_id {tags : List Str} {s : Str}
    (h : ∀ c ∈ s, isWs c = false ∧ c ≠ '<') : ∀ acc,
    inlinePass tags s acc = (s, acc) := by
  intro acc
  have h2 := @inlinePass_lit tags s h [] acc
  rw [List.append_nil] at h2
  rw [h2]
  rw [show inlinePass tags [] acc = ([], acc) from rfl]
  simp

theorem takeWhile_sat_append (p : Char → Bool) (w : Str)
    (h : ∀ c ∈ w, p c = true) (s : Str) :
    (w ++ s).takeWhile p = w ++ s.takeWhile p ∧
      (w ++ s).dropWhile p = s.dropWhile p := by
  induction w with
  | nil => simp
  | cons c w' ih =>
    have hc := h c (List.mem_cons_self c w')
    have ih2 := ih (fun d hd => h d (List.mem_cons_of_mem c hd))
    rw [List.cons_append, List.takeWhile, List.dropWhile, hc]
    exact ⟨by rw [ih2.1]; rfl, ih2.2⟩

theorem findCI_step {pat : Str} {c : Char} {cs : Str}
    (h : startsWithCI pat (c :: cs) = false) :
    findCI pat (c :: cs) = (findCI pat cs).map fun p => (c :: p.1, p.2) := by
  rw [findCI, if_neg (by rw [h]; exact Bool.false_ne_true)]

theorem swCI_ne {p : Char} {ps : Str} {c : Char} {cs : Str} (h : eqCI p c = false) :
    ¬ startsWithCI (p :: ps) (c :: cs) = true := by
  rw [startsWithCI_cons_false h]
  exact Bool.false_ne_true

theorem startsWithCI_self : ∀ (p s : Str), startsWithCI p (p ++ s) = true := by
  intro p
  induction p with
  | nil => intro s; rfl
  | cons c cs ih =>
    intro s
    rw [List.cons_append, startsWithCI, ih s]
    simp [eqCI]

/-- The inline pattern's match on the C2 family
`w1 ++ "<b>bold</b>" ++ w2 ++ "word"` for whitespace runs `w1`, `w2`. -/
theorem tryInlineAt_family (w1 w2 : Str)
    (hw1 : ∀ c ∈ w1, isWs c = true) (hw2 : ∀ c ∈ w2, isWs c = true) :
    tryInlineAt inlineTagsL (w1 ++ (str "<b>bold</b>" ++ (w2 ++ str "word"))) =
      some ⟨w1, str "<b>", str "b", str "bold", str "</b>", w2, str "word"⟩ := by
  have hX : str "<b>bold</b>" ++ (w2 ++ str "word") =
      '<' :: ('b' :: '>' :: (str "bold" ++
        ('<' :: '/' :: 'b' :: '>' :: (w2 ++ str "word")))) := by
    simp [str]
  have htdw := takeWhile_sat_append isWs w1 hw1 (str "<b>bold</b>" ++ (w2 ++ str "word"))
  have hdw : (w1 ++ (str "<b>bold</b>" ++ (w2 ++ str "word"))).dropWhile isWs =
      '<' :: ('b' :: '>' :: (str "bold" ++
        ('<' :: '/' :: 'b' :: '>' :: (w2 ++ str "word")))) := by
    rw [htdw.2, hX, List.dropWhile]
    rfl
  have htw : (w1 ++ (str "<b>bold</b>" ++ (w2 ++ str "word"))).takeWhile isWs = w1 := by
    rw [htdw.1, hX, List.takeWhile]
    simp [isWs]
  rw [tryInlineAt, hdw]
  dsimp only
  rw [if_pos rfl]
  have hfc : findCI ('<' :: '/' :: ['b'])
      (str "bold" ++ ('<' :: '/' :: 'b' :: '>' :: (w2 ++ str "word"))) =
      some (str "bold", '<' :: '/' :: 'b' :: '>' :: (w2 ++ str "word")) := by
    rw [show str "bold" ++ ('<' :: '/' :: 'b' :: '>' :: (w2 ++ str "word")) =
      'b' :: 'o' :: 'l' :: 'd' :: ('<' :: '/' :: 'b' :: '>' :: (w2 ++ str "word"))
      from rfl]
    rw [findCI_step (startsWithCI_cons_false (by decide)),
      findCI_step (startsWithCI_cons_false (by decide)),
      findCI_step (startsWithCI_cons_false (by decide)),
      findCI_step (startsWithCI_cons_false (by decide))]
    rw [findCI, if_pos (by
      rw [show ('<' :: '/' :: 'b' :: '>' :: (w2 ++ str "word")) =
        ('<' :: '/' :: ['b']) ++ ('>' :: (w2 ++ str "word")) from rfl]
      exact startsWithCI_self _ _)]
    rfl
  have hclose : findCloseT ['b']
      (str "bold" ++ ('<' :: '/' :: 'b' :: '>' :: (w2 ++ str "word"))) =
      some (str "bold", str "</b>", w2 ++ str "word") := by
    rw [findCloseT, hfc]
    rfl
  have htrail0 := takeWhile_all_append isWs w2 'w' (str "ord") hw2 (by decide)
  have htrail : List.takeWhile isWs (w2 ++ str "word") = w2 ∧
      List.dropWhile isWs (w2 ++ str "word") = str "word" := htrail0
  have ga : ¬ startsWithCI (str "a") ('b' :: '>' :: (str "bold" ++
      '<' :: '/' :: 'b' :: '>' :: (w2 ++ str "word"))) = true := by
    rw [show (str "a") = ['a'] from rfl, startsWithCI_cons_false (by decide)]
    exact Bool.false_ne_true
  have gspan : ¬ startsWithCI (str "span") ('b' :: '>' :: (str "bold" ++
      '<' :: '/' :: 'b' :: '>' :: (w2 ++ str "word"))) = true := by
    rw [show (str "span") = 's' :: str "pan" from rfl, startsWithCI_cons_false (by decide)]
    exact Bool.false_ne_true
  have gem : ¬ startsWithCI (str "em") ('b' :: '>' :: (str "bold" ++
      '<' :: '/' :: 'b' :: '>' :: (w2 ++ str "word"))) = true := by
    rw [show (str "em") = 'e' :: str "m" from rfl, startsWithCI_cons_false (by decide)]
    exact Bool.false_ne_true
  have gstrong : ¬ startsWithCI (str "strong") ('b' :: '>' :: (str "bold" ++
      '<' :: '/' :: 'b' :: '>' :: (w2 ++ str "word"))) = true := by
    rw [show (str "strong") = 's' :: str "trong" from rfl,
      startsWithCI_cons_false (by decide)]
    exact Bool.false_ne_true
  have gb : startsWithCI (str "b") ('b' :: '>' :: (str "bold" ++
      '<' :: '/' :: 'b' :: '>' :: (w2 ++ str "word"))) = true := by
    rw [show ('b' :: '>' :: (str "bold" ++
      '<' :: '/' :: 'b' :: '>' :: (w2 ++ str "word"))) =
      (str "b") ++ ('>' :: (str "bold" ++
        '<' :: '/' :: 'b' :: '>' :: (w2 ++ str "word"))) from rfl]
    exact startsWithCI_self _ _
  rw [inlineTagsL]
  rw [List.findSome?, if_neg ga]
  rw [List.findSome?, if_neg gspan]
  rw [List.findSome?, if_neg gem]
  rw [List.findSome?, if_neg gstrong]
  rw [List.findSome?]
  rw [if_pos gb]
  have htake : (('b' :: '>' :: (str "bold" ++
      ('<' :: '/' :: 'b' :: '>' :: (w2 ++ str "word"))))).take (str "b").length = ['b'] := rfl
  have hdrop : (('b' :: '>' :: (str "bold" ++
      ('<' :: '/' :: 'b' :: '>' :: (w2 ++ str "word"))))).drop (str "b").length =
      '>' :: (str "bold" ++ ('<' :: '/' :: 'b' :: '>' :: (w2 ++ str "word"))) := rfl
  rw [htake, hdrop, toGt, if_pos rfl]
  dsimp only
  rw [hclose]
  dsimp only
  rw [htw]
  rw [htrail.1, htrail.2]
  rfl

theorem delimAt_none_head {c : Char} {cs : Str} (h : c ≠ '<') :
    delimAt (c :: cs) = none := by
  rw [delimAt.eq_def]
  dsimp only
  exact if_neg h

theorem splitDelims_noLt {s : Str} (h : ∀ c ∈ s, c ≠ '<') :
    splitDelims s = [s] := by
  induction s with
  | nil => rfl
  | cons c cs ih =>
    rw [splitDelims_none (delimAt_none_head (h c (List.mem_cons_self c cs)))]
    rw [ih (fun d hd => h d (List.mem_cons_of_mem c hd))]

theorem dropWhile_mem {p : Char → Bool} {s : Str} {c : Char}
    (h : c ∈ s.dropWhile p) : c ∈ s := by
  induction s with
  | nil => simpa using h
  | cons x xs ih =>
    rw [List.dropWhile] at h
    split at h
    · exact List.mem_cons_of_mem x (ih h)
    · exact h

theorem tryInlineAt_none_noLt {tags : List Str} {c : Char} {cs : Str}
    (h : ∀ d ∈ c :: cs, d ≠ '<') :
    tryInlineAt tags (c :: cs) = none := by
  cases hdw : (c :: cs).dropWhile isWs with
  | nil => rw [tryInlineAt, hdw]
  | cons c' s1 =>
    rw [tryInlineAt, hdw]
    have hc' : c' ∈ c :: cs := dropWhile_mem (hdw ▸ List.mem_cons_self c' s1)
    exact if_neg (h c' hc')

theorem inlinePass_noLt {tags : List Str} {s : Str}
    (h : ∀ c ∈ s, c ≠ '<') (acc : List Str) :
    inlinePass tags s acc = (s, acc) := by
  induction s with
  | nil => rfl
  | cons c cs ih =>
    rw [inlinePass_none acc (tryInlineAt_none_noLt h)]
    rw [ih (fun d hd => h d (List.mem_cons_of_mem c hd))]

/-- Heads that defeat every preserve-tag alternative. -/
theorem preserve_no_b (X : Str) : ∀ t ∈ preserveBase ++ ([] : List Str),
    startsWithCI t ('b' :: X) = false := by
  intro t ht
  simp only [List.append_nil, preserveBase, List.mem_cons, List.not_mem_nil,
    or_false] at ht
  rcases ht with rfl | rfl | rfl | rfl | rfl
  · rw [show str "pre" = 'p' :: str "re" from rfl]
    exact startsWithCI_cons_false (by decide)
  · rw [show str "code" = 'c' :: str "ode" from rfl]
    exact startsWithCI_cons_false (by decide)
  · rw [show str "textarea" = 't' :: str "extarea" from rfl]
    exact startsWithCI_cons_false (by decide)
  · rw [show str "script" = 's' :: str "cript" from rfl]
    exact startsWithCI_cons_false (by decide)
  · rw [show str "style" = 's' :: str "tyle" from rfl]
    exact startsWithCI_cons_false (by decide)

theorem preserve_no_slash (X : Str) : ∀ t ∈ preserveBase ++ ([] : List Str),
    startsWithCI t ('/' :: X) = false := by
  intro t ht
  simp only [List.append_nil, preserveBase, List.mem_cons, List.not_mem_nil,
    or_false] at ht
  rcases ht with rfl | rfl | rfl | rfl | rfl
  · rw [show str "pre" = 'p' :: str "re" from rfl]
    exact startsWithCI_cons_false (by decide)
  · rw [show str "code" = 'c' :: str "ode" from rfl]
    exact startsWithCI_cons_false (by decide)
  · rw [show str "textarea" = 't' :: str "extarea" from rfl]
    exact startsWithCI_cons_false (by decide)
  · rw [show str "script" = 's' :: str "cript" from rfl]
    exact startsWithCI_cons_false (by decide)
  · rw [show str "style" = 's' :: str "tyle" from rfl]
    exact startsWithCI_cons_false (by decide)

/-- The preserve extraction leaves the C2/C3 family text untouched: it
contains no preserve element. -/
theorem family_extract (w1 w2 : Str)
    (hw1 : ∀ c ∈ w1, isWs c = true) (hw2 : ∀ c ∈ w2, isWs c = true) :
    extractTags (preserveBase ++ []) kPRESERVE
        (str "word" ++ (w1 ++ (str "<b>bold</b>" ++ (w2 ++ str "word")))) =
      (str "word" ++ (w1 ++ (str "<b>bold</b>" ++ (w2 ++ str "word"))), []) := by
  have hwordlt : ∀ c ∈ str "word", c ≠ '<' := by decide
  have hb1 : ∀ c ∈ str "b>bold", c ≠ '<' := by decide
  have hb2 : ∀ c ∈ str "/b>", c ≠ '<' := by decide
  have ew : extractGo (preserveBase ++ []) kPRESERVE (str "word") [] =
      (str "word", []) := by
    have h0 := @extractGo_lit (preserveBase ++ []) kPRESERVE (str "word") hwordlt [] []
    rw [extractGo_nil] at h0
    simpa using h0
  have ew2 : extractGo (preserveBase ++ []) kPRESERVE (w2 ++ str "word") [] =
      (w2 ++ str "word", []) := by
    rw [@extractGo_lit (preserveBase ++ []) kPRESERVE w2
      (fun c hc => ws_ne_lt (hw2 c hc)) (str "word") [], ew]
  have e3 : extractGo (preserveBase ++ []) kPRESERVE
      (str "/b>" ++ (w2 ++ str "word")) [] =
      (str "/b>" ++ (w2 ++ str "word"), []) := by
    rw [@extractGo_lit (preserveBase ++ []) kPRESERVE (str "/b>") hb2
      (w2 ++ str "word") [], ew2]
  have e4 : extractGo (preserveBase ++ []) kPRESERVE
      ('<' :: (str "/b>" ++ (w2 ++ str "word"))) [] =
      ('<' :: (str "/b>" ++ (w2 ++ str "word")), []) := by
    have hno : ∀ t ∈ preserveBase ++ ([] : List Str),
        startsWithCI t (str "/b>" ++ (w2 ++ str "word")) = false := by
      intro t ht
      rw [show str "/b>" ++ (w2 ++ str "word") =
        '/' :: (str "b>" ++ (w2 ++ str "word")) from rfl]
      exact preserve_no_slash _ t ht
    rw [extractGo_ltStep hno [], e3]
  have e5 : extractGo (preserveBase ++ []) kPRESERVE
      (str "b>bold" ++ ('<' :: (str "/b>" ++ (w2 ++ str "word")))) [] =
      (str "b>bold" ++ ('<' :: (str "/b>" ++ (w2 ++ str "word"))), []) := by
    rw [@extractGo_lit (preserveBase ++ []) kPRESERVE (str "b>bold") hb1
      ('<' :: (str "/b>" ++ (w2 ++ str "word"))) [], e4]
  have e6 : extractGo (preserveBase ++ []) kPRESERVE
      ('<' :: (str "b>bold" ++ ('<' :: (str "/b>" ++ (w2 ++ str "word"))))) [] =
      ('<' :: (str "b>bold" ++ ('<' :: (str "/b>" ++ (w2 ++ str "word")))), []) := by
    have hno : ∀ t ∈ preserveBase ++ ([] : List Str),
        startsWithCI t (str "b>bold" ++ ('<' :: (str "/b>" ++ (w2 ++ str "word")))) =
          false := by
      intro t ht
      rw [show str "b>bold" ++ ('<' :: (str "/b>" ++ (w2 ++ str "word"))) =
        'b' :: (str ">bold" ++ ('<' :: (str "/b>" ++ (w2 ++ str "word")))) from rfl]
      exact preserve_no_b _ t ht
    rw [extractGo_ltStep hno [], e5]
  have e6' : extractGo (preserveBase ++ []) kPRESERVE
      (str "<b>bold</b>" ++ (w2 ++ str "word")) [] =
      (str "<b>bold</b>" ++ (w2 ++ str "word"), []) := e6
  have e7 : extractGo (preserveBase ++ []) kPRESERVE
      (w1 ++ (str "<b>bold</b>" ++ (w2 ++ str "word"))) [] =
      (w1 ++ (str "<b>bold</b>" ++ (w2 ++ str "word")), []) := by
    rw [@extractGo_lit (preserveBase ++ []) kPRESERVE w1
      (fun c hc => ws_ne_lt (hw1 c hc)) (str "<b>bold</b>" ++ (w2 ++ str "word")) [],
      e6']
  show extractGo (preserveBase ++ []) kPRESERVE _ [] = _
  rw [@extractGo_lit (preserveBase ++ []) kPRESERVE (str "word") hwordlt
    (w1 ++ (str "<b>bold</b>" ++ (w2 ++ str "word"))) [], e7]

/-- End-to-end output of the whitespace core on the C2/C3 family
`"word" ++ w1 ++ "<b>bold</b>" ++ w2 ++ "word"`: the inline match (the
element plus its adjacent whitespace runs) becomes one space exactly when
the corresponding run was non-empty, around the restored element. -/
theorem family_output (w1 w2 : Str)
    (hw1 : ∀ c ∈ w1, isWs c = true) (hw2 : ∀ c ∈ w2, isWs c = true) :
    whitespaceOptimize []
        (str "word" ++ (w1 ++ (str "<b>bold</b>" ++ (w2 ++ str "word")))) =
      str "word" ++ ((if w1.isEmpty then [] else [' ']) ++
        (str "<b>bold</b>" ++ ((if w2.isEmpty then [] else [' ']) ++ str "word"))) := by
  have hwordu : ∀ c ∈ str "word", c ≠ '_' := by decide
  have hboldu : ∀ c ∈ str "<b>bold</b>", c ≠ '_' := by decide
  have hnu : ∀ c ∈ str "word" ++ (w1 ++ (str "<b>bold</b>" ++ (w2 ++ str "word"))),
      c ≠ '_' := by
    intro c hc
    rcases List.mem_append.mp hc with h | h
    · exact hwordu c h
    rcases List.mem_append.mp h with h | h
    · exact ws_ne_und (hw1 c h)
    rcases List.mem_append.mp h with h | h
    · exact hboldu c h
    rcases List.mem_append.mp h with h | h
    · exact ws_ne_und (hw2 c h)
    · exact hwordu c h
  have hg : guardHit (str "word" ++ (w1 ++ (str "<b>bold</b>" ++ (w2 ++ str "word")))) =
      false := containsTok_no_und hnu
  have he1 := family_extract w1 w2 hw1 hw2
  -- pass 1 of the inline loop
  have hword_pass : ∀ c ∈ str "word", isWs c = false ∧ c ≠ '<' := by decide
  have hwp : inlinePass inlineTagsL (str "word") [str "<b>bold</b>"] =
      (str "word", [str "<b>bold</b>"]) := inlinePass_noLt (by decide) _
  have hskip : skipHit (str "bold") = false := by decide
  have hnorm : normalizeContent (str "bold") = str "bold" := by decide
  have hacc : [str "<b>" ++ normalizeContent (str "bold") ++ str "</b>"] =
      [str "<b>bold</b>"] := by rw [hnorm]; decide
  have hafter : ∀ (c0 : Char) (cs0 : Str),
      w1 ++ (str "<b>bold</b>" ++ (w2 ++ str "word")) = c0 :: cs0 →
      inlinePass inlineTagsL (c0 :: cs0) [] =
        (inlineRepl w1 w2 0 ++ str "word", [str "<b>bold</b>"]) := by
    intro c0 cs0 hA
    have hm : tryInlineAt inlineTagsL (c0 :: cs0) =
        some ⟨w1, str "<b>", str "b", str "bold", str "</b>", w2, str "word"⟩ := by
      rw [← hA]; exact tryInlineAt_family w1 w2 hw1 hw2
    rw [inlinePass_some_repl [] hm hskip]
    dsimp only
    rw [List.nil_append, hacc, hwp]
    rfl
  have hp1 : inlinePass inlineTagsL
      (str "word" ++ (w1 ++ (str "<b>bold</b>" ++ (w2 ++ str "word")))) [] =
      (str "word" ++ (inlineRepl w1 w2 0 ++ str "word"), [str "<b>bold</b>"]) := by
    rw [@inlinePass_lit inlineTagsL (str "word") hword_pass
      (w1 ++ (str "<b>bold</b>" ++ (w2 ++ str "word"))) []]
    cases hA : w1 ++ (str "<b>bold</b>" ++ (w2 ++ str "word")) with
    | nil =>
      exfalso
      cases w1 <;> simp [str] at hA
    | cons c0 cs0 =>
      rw [hafter c0 cs0 hA]
  -- the loop: pass 1 changes the text, pass 2 is the fixed point
  have hwordlt2 : ∀ c ∈ str "word", c ≠ '<' := by decide
  have hT1ne : str "word" ++ (inlineRepl w1 w2 0 ++ str "word") ≠
      str "word" ++ (w1 ++ (str "<b>bold</b>" ++ (w2 ++ str "word"))) := by
    intro he
    have h1 := congrArg countLt he
    simp only [countLt_append, countLt_inlineRepl] at h1
    have hcw : countLt (str "word") = 0 := by decide
    have hcb : countLt (str "<b>bold</b>") = 2 := by decide
    rw [hcw, hcb] at h1
    omega
  have hT1noLt : ∀ c ∈ str "word" ++ (inlineRepl w1 w2 0 ++ str "word"),
      c ≠ '<' := by
    intro c hc
    rcases List.mem_append.mp hc with h | h
    · exact hwordlt2 c h
    rcases List.mem_append.mp h with h | h
    · intro he
      subst he
      have h0 := countLt_inlineRepl w1 w2 0
      rw [countLt, List.count_eq_zero] at h0
      exact h0 h
    · exact hwordlt2 c h
  have hp2 : inlinePass inlineTagsL
      (str "word" ++ (inlineRepl w1 w2 0 ++ str "word")) [str "<b>bold</b>"] =
      (str "word" ++ (inlineRepl w1 w2 0 ++ str "word"), [str "<b>bold</b>"]) :=
    inlinePass_noLt hT1noLt _
  have hloop : inlineLoop inlineTagsL
      (str "word" ++ (w1 ++ (str "<b>bold</b>" ++ (w2 ++ str "word")))) [] =
      (str "word" ++ (inlineRepl w1 w2 0 ++ str "word"), [str "<b>bold</b>"]) := by
    rw [inlineLoop_eq, hp1]
    dsimp only
    rw [if_neg hT1ne, inlineLoop_eq, hp2]
    dsimp only
    rw [if_pos rfl]
  rw [whitespaceOptimize, if_neg (by rw [hg]; exact Bool.false_ne_true)]
  dsimp only
  rw [he1]
  dsimp only
  rw [hloop]
  dsimp only
  rcases w1 with _ | ⟨a1, t1⟩ <;> rcases w2 with _ | ⟨a2, t2⟩
  · rw [show inlineRepl [] [] 0 = phTok kINLINE 0 from rfl]
    decide
  · rw [show inlineRepl [] (a2 :: t2) 0 = phTok kINLINE 0 ++ [' '] from rfl,
      if_pos (show ([] : Str).isEmpty = true from rfl),
      if_neg (show ¬ ((a2 :: t2).isEmpty = true) from fun h => Bool.false_ne_true h)]
    decide
  · rw [show inlineRepl (a1 :: t1) [] 0 = ' ' :: phTok kINLINE 0 from rfl,
      if_neg (show ¬ ((a1 :: t1).isEmpty = true) from fun h => Bool.false_ne_true h),
      if_pos (show ([] : Str).isEmpty = true from rfl)]
    decide
  · rw [show inlineRepl (a1 :: t1) (a2 :: t2) 0 =
      ' ' :: (phTok kINLINE 0 ++ [' ']) from rfl,
      if_neg (show ¬ ((a1 :: t1).isEmpty = true) from fun h => Bool.false_ne_true h),
      if_neg (show ¬ ((a2 :: t2).isEmpty = true) from fun h => Bool.false_ne_true h)]
    decide

/-- C2: a processed inline match spans the element plus its adjacent
whitespace runs, and the callback replaces the entire match by one leading
space exactly when the leading run was non-empty, the INLINE placeholder,
and one trailing space exactly when the trailing run was non-empty; on the
family `"word" ++ w1 ++ "<b>bold</b>" ++ w2 ++ "word"` the core keeps the
single boundary spaces, and in particular maps `"word <b>bold</b> word"`
to itself. -/
theorem c2_inline_replacement :
    (∀ (tags : List Str) (c : Char) (cs : Str) (m : IM) (acc : List Str),
        tryInlineAt tags (c :: cs) = some m →
        skipHit m.content = false →
        c :: cs = m.lead ++ m.openT ++ m.content ++ m.closeT ++ m.trail ++ m.rest ∧
        inlinePass tags (c :: cs) acc =
          ((if m.lead.isEmpty then [] else [' ']) ++
            (phTok kINLINE acc.length ++
              ((if m.trail.isEmpty then [] else [' ']) ++
                (inlinePass tags m.rest
                  (acc ++ [m.openT ++ normalizeContent m.content ++ m.closeT])).1)),
            (inlinePass tags m.rest
              (acc ++ [m.openT ++ normalizeContent m.content ++ m.closeT])).2)) ∧
      (∀ w1 w2 : Str, (∀ c ∈ w1, isWs c = true) → (∀ c ∈ w2, isWs c = true) →
        whitespaceOptimize []
            (str "word" ++ (w1 ++ (str "<b>bold</b>" ++ (w2 ++ str "word")))) =
          str "word" ++ ((if w1.isEmpty then [] else [' ']) ++
            (str "<b>bold</b>" ++ ((if w2.isEmpty then [] else [' ']) ++ str "word")))) ∧
      whitespaceOptimize [] (str "word <b>bold</b> word") =
        str "word <b>bold</b> word" := by
  refine ⟨?_, family_output, by decide⟩
  intro tags c cs m acc him hskip
  refine ⟨(tryInlineAt_split him).1, ?_⟩
  rw [inlinePass_some_repl acc him hskip]
  simp only [inlineRepl, List.append_assoc]

/-- C3 counterexample: on the clean output of `"word <b>bold</b> word"` the
re-entrancy guard does not fire — there is no placeholder token in it — so
the second run is a full reprocessing of the text, not the guard-driven
no-op the claim asserts. -/
theorem c3_counterexample :
    guardHit (whitespaceOptimize [] (str "word <b>bold</b> word")) = false ∧
      whitespaceOptimize [] (str "word <b>bold</b> word") =
        str "word <b>bold</b> word" :=
  ⟨by decide, by decide⟩

/-- C3 amended: on the verified family the core is idempotent, but not
through the guard: the first run's output carries no placeholder token, the
guard does not fire on it, and the second run reprocesses the text back to
the same result. -/
theorem c3_idempotent_family (w1 w2 : Str)
    (hw1 : ∀ c ∈ w1, isWs c = true) (hw2 : ∀ c ∈ w2, isWs c = true) :
    whitespaceOptimize [] (whitespaceOptimize []
        (str "word" ++ (w1 ++ (str "<b>bold</b>" ++ (w2 ++ str "word"))))) =
      whitespaceOptimize []
        (str "word" ++ (w1 ++ (str "<b>bold</b>" ++ (w2 ++ str "word")))) ∧
    guardHit (whitespaceOptimize []
        (str "word" ++ (w1 ++ (str "<b>bold</b>" ++ (w2 ++ str "word"))))) = false := by
  rw [family_output w1 w2 hw1 hw2]
  rcases w1 with _ | ⟨a1, t1⟩ <;> rcases w2 with _ | ⟨a2, t2⟩
  · rw [if_pos (show ([] : Str).isEmpty = true from rfl)]
    exact ⟨by decide, by decide⟩
  · rw [if_pos (show ([] : Str).isEmpty = true from rfl),
      if_neg (show ¬ ((a2 :: t2).isEmpty = true) from fun h => Bool.false_ne_true h)]
    exact ⟨by decide, by decide⟩
  · rw [if_neg (show ¬ ((a1 :: t1).isEmpty = true) from fun h => Bool.false_ne_true h),
      if_pos (show ([] : Str).isEmpty = true from rfl)]
    exact ⟨by decide, by decide⟩
  · rw [if_neg (show ¬ ((a1 :: t1).isEmpty = true) from fun h => Bool.false_ne_true h),
      if_neg (show ¬ ((a2 :: t2).isEmpty = true) from fun h => Bool.false_ne_true h)]
    exact ⟨by decide, by decide⟩

theorem c3_idempotent_family_witness :
    whitespaceOptimize [] (whitespaceOptimize []
        (str "word" ++ ([' '] ++ (str "<b>bold</b>" ++ ([' '] ++ str "word"))))) =
      whitespaceOptimize []
        (str "word" ++ ([' '] ++ (str "<b>bold</b>" ++ ([' '] ++ str "word")))) ∧
    guardHit (whitespaceOptimize []
        (str "word" ++ ([' '] ++ (str "<b>bold</b>" ++ ([' '] ++ str "word"))))) =
      false :=
  c3_idempotent_family [' '] [' '] (by decide) (by decide)

/-- An alternating decomposition `t0, d1, t1, d2, t2, …` of a text into
plain-text segments and tag delimiters, joined back together. -/
def weave : Str → List (Str × Str) → Str
  | t0, [] => t0
  | t0, (d, t) :: ps => t0 ++ (d ++ weave t ps)

/-- The parts the split regex produces on such a decomposition. -/
def weaveParts : Str → List (Str × Str) → List Str
  | t0, [] => [t0]
  | t0, (d, t) :: ps => t0 :: d :: weaveParts t ps

/-- The spec's description of the block collapse on the decomposition: each
text segment whitespace-collapsed and trimmed, each tag delimiter
unchanged, rejoined in order (the final whole-result trim is applied by the
theorem on top of this). -/
def weaveOut : Str → List (Str × Str) → Str
  | t0, [] => trimStr (collapseWsStr t0)
  | t0, (d, t) :: ps => trimStr (collapseWsStr t0) ++ (d ++ weaveOut t ps)

theorem delim_head {s : Str} {p : Str × Str} (h : delimAt s = some p) :
    ∃ r, s = '<' :: r := by
  cases s with
  | nil => simp [delimAt] at h
  | cons c cs =>
    by_cases hc : c = '<'
    · exact ⟨cs, by rw [hc]⟩
    · rw [delimAt_none_head hc] at h
      simp at h

theorem splitDelims_weave :
    ∀ (ps : List (Str × Str)) (t0 : Str),
    (∀ c ∈ t0, c ≠ '<') →
    (∀ p ∈ ps, (∀ r, delimAt (p.1 ++ r) = some (p.1, r)) ∧ (∀ c ∈ p.2, c ≠ '<')) →
    splitDelims (weave t0 ps) = weaveParts t0 ps := by
  intro ps
  induction ps with
  | nil =>
    intro t0 h0 _
    exact splitDelims_noLt h0
  | cons p ps' ih =>
    intro t0
    obtain ⟨d, t⟩ := p
    intro h0 hps
    have hd := (hps (d, t) (List.mem_cons_self _ _)).1
    have ht := (hps (d, t) (List.mem_cons_self _ _)).2
    have hps' : ∀ q ∈ ps',
        (∀ r, delimAt (q.1 ++ r) = some (q.1, r)) ∧ (∀ c ∈ q.2, c ≠ '<') :=
      fun q hq => hps q (List.mem_cons_of_mem _ hq)
    clear hps
    revert h0
    induction t0 with
    | nil =>
      intro h0
      have hW := hd (weave t ps')
      cases hcons : d ++ weave t ps' with
      | nil =>
        rw [hcons] at hW
        simp [delimAt] at hW
      | cons c cs =>
        show splitDelims (d ++ weave t ps') = [] :: d :: weaveParts t ps'
        rw [hcons, splitDelims_some (hcons ▸ hW)]
        rw [ih t ht hps']
    | cons c t0' iht =>
      intro h0
      have hc : c ≠ '<' := h0 c (List.mem_cons_self c t0')
      show splitDelims (c :: (t0' ++ (d ++ weave t ps'))) =
        (c :: t0') :: d :: weaveParts t ps'
      rw [splitDelims_none (delimAt_none_head hc)]
      have ihi := iht (fun x hx => h0 x (List.mem_cons_of_mem c hx))
      rw [show weave t0' ((d, t) :: ps') = t0' ++ (d ++ weave t ps') from rfl] at ihi
      rw [show weaveParts t0' ((d, t) :: ps') = t0' :: d :: weaveParts t ps'
        from rfl] at ihi
      rw [ihi]

/-- The per-part mapper of the block collapse (`whitespace.js` 122–127):
tag parts pass through, text parts are collapsed and trimmed. -/
def segMap : Str → Str
  | [] => []
  | c :: cs => if c = '<' then c :: cs else trimStr (collapseWsStr (c :: cs))

theorem segMap_noLt {u : Str} (h : ∀ c ∈ u, c ≠ '<') :
    segMap u = trimStr (collapseWsStr u) := by
  cases u with
  | nil => rfl
  | cons c u' =>
    rw [segMap, if_neg (h c (List.mem_cons_self c u'))]

theorem weaveParts_join :
    ∀ (ps : List (Str × Str)) (t0 : Str),
    (∀ c ∈ t0, c ≠ '<') →
    (∀ p ∈ ps, ∀ r, delimAt (p.1 ++ r) = some (p.1, r)) →
    (∀ p ∈ ps, ∀ c ∈ p.2, c ≠ '<') →
    ((weaveParts t0 ps).map (fun p =>
      match p with
      | [] => []
      | c :: _ => if c = '<' then p else trimStr (collapseWsStr p))).join =
      weaveOut t0 ps := by
  have hfun : (fun p =>
      match p with
      | ([] : Str) => ([] : Str)
      | c :: _ => if c = '<' then p else trimStr (collapseWsStr p)) = segMap := by
    funext x
    cases x <;> rfl
  simp only [hfun]
  intro ps
  induction ps with
  | nil =>
    intro t0 h0 _ _
    rw [show weaveParts t0 [] = [t0] from rfl, List.map_cons, List.map_nil,
      segMap_noLt h0]
    show trimStr (collapseWsStr t0) ++ [] = weaveOut t0 []
    rw [show weaveOut t0 [] = trimStr (collapseWsStr t0) from rfl, List.append_nil]
  | cons p ps' ih =>
    intro t0
    obtain ⟨d, t⟩ := p
    intro h0 hps hts
    have hd0 : delimAt d = some (d, []) := by
      have h1 := hps (d, t) (List.mem_cons_self _ _) []
      simpa using h1
    obtain ⟨r0, hr0⟩ := delim_head hd0
    have hps' : ∀ q ∈ ps', ∀ r, delimAt (q.1 ++ r) = some (q.1, r) :=
      fun q hq => hps q (List.mem_cons_of_mem _ hq)
    have hts' : ∀ q ∈ ps', ∀ c ∈ q.2, c ≠ '<' :=
      fun q hq => hts q (List.mem_cons_of_mem _ hq)
    have hdseg : segMap d = d := by
      rw [hr0, segMap, if_pos rfl]
    rw [show weaveParts t0 ((d, t) :: ps') = t0 :: d :: weaveParts t ps' from rfl,
      List.map_cons, List.map_cons, segMap_noLt h0, hdseg]
    show trimStr (collapseWsStr t0) ++
      (d ++ ((weaveParts t ps').map segMap).join) = weaveOut t0 ((d, t) :: ps')
    rw [ih t (hts (d, t) (List.mem_cons_self _ _)) hps' hts']
    rw [show weaveOut t0 ((d, t) :: ps') =
      trimStr (collapseWsStr t0) ++ (d ++ weaveOut t ps') from rfl]

/-- The block collapse on an alternating text/tag decomposition: each text
segment is whitespace-collapsed and trimmed, each tag delimiter passes
through unchanged, the parts are rejoined in order and the whole result is
trimmed once more. -/
theorem blockStep_weave (ps : List (Str × Str)) (t0 : Str)
    (h0 : ∀ c ∈ t0, c ≠ '<')
    (hps : ∀ p ∈ ps, ∀ r, delimAt (p.1 ++ r) = some (p.1, r))
    (hts : ∀ p ∈ ps, ∀ c ∈ p.2, c ≠ '<') :
    blockStep (weave t0 ps) = trimStr (weaveOut t0 ps) := by
  rw [blockStep]
  rw [splitDelims_weave ps t0 h0 (fun p hp => ⟨hps p hp, hts p hp⟩)]
  rw [weaveParts_join ps t0 h0 hps hts]

/-- C9: on every alternating decomposition into `<`-free text segments and
tag delimiters, the block collapser collapses each whitespace run of each
text segment to one space and trims it, keeps the tag tokens unchanged,
rejoins in order and trims the whole result; in particular
`"<div>   a    b   </div>"` collapses to `"<div>a b</div>"`, both under the
block step itself and under the whole whitespace core. -/
theorem c9_block_collapse :
    (∀ (ps : List (Str × Str)) (t0 : Str),
      (∀ c ∈ t0, c ≠ '<') →
      (∀ p ∈ ps, ∀ r, delimAt (p.1 ++ r) = some (p.1, r)) →
      (∀ p ∈ ps, ∀ c ∈ p.2, c ≠ '<') →
      blockStep (weave t0 ps) = trimStr (weaveOut t0 ps)) ∧
    blockStep (str "<div>   a    b   </div>") = str "<div>a b</div>" ∧
    whitespaceOptimize [] (str "<div>   a    b   </div>") = str "<div>a b</div>" :=
  ⟨blockStep_weave, by decide, by decide⟩

theorem jsSubGo_step {m b a : Str} {c : Char} {r : Str} (hc : c ≠ '$') :
    jsSubGo m b a (c :: r) = c :: jsSubGo m b a r := by
  rw [jsSubGo.eq_def]
  split
  · rename_i heq
    exact absurd heq (by simp)
  · rename_i heq
    obtain ⟨h1, -⟩ := List.cons.inj heq
    exact absurd h1 hc
  · rename_i d r' heq
    obtain ⟨h1, -⟩ := List.cons.inj heq
    exact absurd h1 hc
  · rename_i c' r' h1 h2 heq
    obtain ⟨h3, h4⟩ := List.cons.inj heq
    rw [h3, h4]

/-- With no `$` in the replacement string, `GetSubstitution` is the
identity. -/
theorem jsSubGo_noDollar (m b a v : Str) (hv : ∀ c ∈ v, c ≠ '$') :
    jsSubGo m b a v = v := by
  induction v with
  | nil => rfl
  | cons c r ih =>
    rw [jsSubGo_step (hv c (List.mem_cons_self c r)),
      ih (fun d hd => hv d (List.mem_cons_of_mem c hd))]

theorem isPrefixOf_self_append : ∀ (p r : Str), p.isPrefixOf (p ++ r) = true := by
  intro p
  induction p with
  | nil => intro r; simp [List.isPrefixOf]
  | cons a as ih =>
    intro r
    rw [List.cons_append, List.isPrefixOf, ih r]
    simp

theorem isPrefixOf_head_ne {p' : Str} {c d : Char} {cs : Str} (h : d ≠ c) :
    (d :: p').isPrefixOf (c :: cs) = false := by
  rw [List.isPrefixOf]
  simp [h]

theorem replaceFirstGo_found (p' val : Str) (hval : ∀ c ∈ val, c ≠ '$') :
    ∀ (A : Str), (∀ c ∈ A, c ≠ '_') → ∀ (seen B : Str),
    replaceFirstGo ('_' :: p') val seen (A ++ (('_' :: p') ++ B)) =
      seen.reverse ++ (A ++ (val ++ B)) := by
  intro A
  induction A with
  | nil =>
    intro _ seen B
    simp only [List.nil_append]
    rw [List.cons_append, replaceFirstGo]
    have hpre : ('_' :: p').isPrefixOf ('_' :: (p' ++ B)) = true := by
      have h1 := isPrefixOf_self_append ('_' :: p') B
      rwa [List.cons_append] at h1
    rw [if_pos hpre]
    have hdrop : ('_' :: (p' ++ B)).drop ('_' :: p').length = B := by
      rw [List.length_cons, List.drop_succ_cons]
      exact List.drop_left p' B
    rw [hdrop, jsSubGo_noDollar _ _ _ _ hval]
    simp
  | cons x A' ih =>
    intro hA seen B
    have hx : x ≠ '_' := hA x (List.mem_cons_self x A')
    rw [List.cons_append, replaceFirstGo,
      if_neg (by rw [isPrefixOf_head_ne (fun he => hx he.symm)]
                 exact Bool.false_ne_true)]
    rw [ih (fun d hd => hA d (List.mem_cons_of_mem x hd)) (x :: seen) B]
    simp

/-- `text.replace(pat, val)` substitutes the first occurrence: with a
pattern starting in `_` and a prefix free of `_`, the occurrence after the
prefix is the one replaced. -/
theorem replaceFirst_at (p' val : Str) (hval : ∀ c ∈ val, c ≠ '$')
    (A : Str) (hA : ∀ c ∈ A, c ≠ '_') (B : Str) :
    replaceFirst ('_' :: p') val (A ++ (('_' :: p') ++ B)) = A ++ (val ++ B) := by
  rw [replaceFirst, replaceFirstGo_found p' val hval A hA [] B]
  rfl

theorem replaceFirstGo_acc (pat val : Str) (hval : ∀ c ∈ val, c ≠ '$') :
    ∀ (S seen : Str),
    replaceFirstGo pat val seen S = seen.reverse ++ replaceFirstGo pat val [] S := by
  intro S
  induction S with
  | nil =>
    intro seen
    rw [replaceFirstGo, replaceFirstGo]
    simp
  | cons c cs ih =>
    intro seen
    rw [replaceFirstGo, replaceFirstGo]
    cases hpre : pat.isPrefixOf (c :: cs) with
    | true =>
      rw [if_pos rfl, if_pos rfl]
      rw [jsSubGo_noDollar _ _ _ _ hval, jsSubGo_noDollar _ _ _ _ hval]
      simp
    | false =>
      rw [if_neg (fun h => Bool.false_ne_true h),
        if_neg (fun h => Bool.false_ne_true h)]
      rw [ih (c :: seen), ih [c]]
      simp

theorem replaceFirstGo_lit (p' val : Str) :
    ∀ (P : Str), (∀ c ∈ P, c ≠ '_') → ∀ (seen S : Str),
    replaceFirstGo ('_' :: p') val seen (P ++ S) =
      replaceFirstGo ('_' :: p') val (P.reverse ++ seen) S := by
  intro P
  induction P with
  | nil => intro _ seen S; rfl
  | cons x P' ih =>
    intro hP seen S
    have hx : x ≠ '_' := hP x (List.mem_cons_self x P')
    rw [List.cons_append, replaceFirstGo,
      if_neg (by rw [isPrefixOf_head_ne (fun he => hx he.symm)]
                 exact Bool.false_ne_true)]
    rw [ih (fun d hd => hP d (List.mem_cons_of_mem x hd)) (x :: seen) S]
    have hs : P'.reverse ++ (x :: seen) = (x :: P').reverse ++ seen := by simp
    rw [hs]

/-- The first-occurrence replace walks over a `_`-free prefix untouched. -/
theorem replaceFirst_skip (p' val : Str) (hval : ∀ c ∈ val, c ≠ '$')
    (P : Str) (hP : ∀ c ∈ P, c ≠ '_') (S : Str) :
    replaceFirst ('_' :: p') val (P ++ S) = P ++ replaceFirst ('_' :: p') val S := by
  rw [replaceFirst, replaceFirstGo_lit p' val P hP [] S,
    replaceFirstGo_acc ('_' :: p') val hval S (P.reverse ++ [])]
  rw [replaceFirst]
  simp

/-- Text segments interleaved with the EXCLUDE placeholders from index `i`
on (the shape the optimizers must leave the carved text in). -/
def tokWeave (i : Nat) (z0 : Str) : List Str → Str
  | [] => z0
  | z :: zs => z0 ++ (phTok kEXCLUDE i ++ tokWeave (i + 1) z zs)

/-- The same decomposition with each placeholder replaced by the recorded
content it addresses. -/
def valWeave (vals : List Str) (i : Nat) (z0 : Str) : List Str → Str
  | [] => z0
  | z :: zs => z0 ++ (vals.getD i [] ++ valWeave vals (i + 1) z zs)

theorem vals_clean {vals : List Str}
    (hv : ∀ v ∈ vals, ∀ c ∈ v, c ≠ '_' ∧ c ≠ '$') (j : Nat) :
    ∀ c ∈ vals.getD j [], c ≠ '_' ∧ c ≠ '$' := by
  intro c hc
  rw [List.getD_eq_get?] at hc
  cases hg : vals.get? j with
  | none =>
    rw [hg] at hc
    simp at hc
  | some v =>
    rw [hg] at hc
    exact hv v (List.get?_mem hg) c hc

theorem exFold_skip (vals : List Str)
    (hv : ∀ v ∈ vals, ∀ c ∈ v, c ≠ '_' ∧ c ≠ '$') :
    ∀ (L : List Nat) (P S : Str), (∀ c ∈ P, c ≠ '_') →
    L.foldl (fun txt j => replaceFirst (phTok kEXCLUDE j) (vals.getD j []) txt)
        (P ++ S) =
      P ++ L.foldl (fun txt j => replaceFirst (phTok kEXCLUDE j) (vals.getD j []) txt)
        S := by
  intro L
  induction L with
  | nil => intro P S hP; rfl
  | cons j L' ih =>
    intro P S hP
    rw [List.foldl_cons, List.foldl_cons]
    rw [show phTok kEXCLUDE j =
      '_' :: ('_' :: '_' :: (kEXCLUDE ++ ('_' :: (natDigits j ++ str "___"))))
      from rfl]
    rw [replaceFirst_skip _ _ (fun c hc => (vals_clean hv j c hc).2) P hP S]
    exact ih P _ hP

theorem exRestore_fold (vals : List Str)
    (hv : ∀ v ∈ vals, ∀ c ∈ v, c ≠ '_' ∧ c ≠ '$') :
    ∀ (zs : List Str) (i : Nat) (z0 : Str),
    (∀ c ∈ z0, c ≠ '_') → (∀ z ∈ zs, ∀ c ∈ z, c ≠ '_') →
    (List.range' i zs.length).foldl
        (fun txt j => replaceFirst (phTok kEXCLUDE j) (vals.getD j []) txt)
        (tokWeave i z0 zs) =
      valWeave vals i z0 zs := by
  intro zs
  induction zs with
  | nil => intro i z0 _ _; rfl
  | cons z zs' ih =>
    intro i z0 h0 hz
    have hrange : List.range' i (z :: zs').length =
        i :: List.range' (i + 1) zs'.length := by
      rw [List.length_cons, List.range'_succ]
    rw [hrange, List.foldl_cons]
    rw [show tokWeave i z0 (z :: zs') =
      z0 ++ (phTok kEXCLUDE i ++ tokWeave (i + 1) z zs') from rfl]
    rw [show phTok kEXCLUDE i =
      '_' :: ('_' :: '_' :: (kEXCLUDE ++ ('_' :: (natDigits i ++ str "___"))))
      from rfl]
    rw [replaceFirst_at _ _ (fun c hc => (vals_clean hv i c hc).2) z0 h0 _]
    rw [show z0 ++ (vals.getD i [] ++ tokWeave (i + 1) z zs') =
      (z0 ++ vals.getD i []) ++ tokWeave (i + 1) z zs' from by simp]
    have hP : ∀ c ∈ z0 ++ vals.getD i [], c ≠ '_' := by
      intro c hc
      rcases List.mem_append.mp hc with h | h
      · exact h0 c h
      · exact (vals_clean hv i c h).1
    rw [exFold_skip vals hv _ _ _ hP]
    rw [ih (i + 1) z (hz z (List.mem_cons_self z zs'))
      (fun z' hz' => hz z' (List.mem_cons_of_mem z hz'))]
    rw [show valWeave vals i z0 (z :: zs') =
      z0 ++ (vals.getD i [] ++ valWeave vals (i + 1) z zs') from rfl]
    simp

/-- C8 counterexample: with `excludeTags = ["div"]` and the comment
optimizer enabled, the excluded `<div> x </div>` inside a comment is carved
out, its placeholder is destroyed when the comment is removed, and the
pipeline returns the empty document: the excluded element's markup does not
appear in the output at all, and no error is raised. -/
theorem c8_counterexample :
    processContent [commentRemove] [str "div"] (str "<!--<div> x </div>-->") =
        Except.ok [] ∧
      (extractTags [str "div"] kEXCLUDE (str "<!--<div> x </div>-->")).2 =
        [str "<div> x </div>"] ∧
      hasSub (str "<div> x </div>") ([] : Str) = false :=
  ⟨by rfl, by decide, by decide⟩

/-- C8 amended: when the optimizers leave the carved text as clean segments
around intact EXCLUDE placeholders (no `_` outside the placeholders, no `$`
or `_` in the recorded markup), the boundary restores every emitted
placeholder exactly once, in index order, after all optimizers have run:
the pipeline returns the segments with each excluded element's full markup
byte-identical in place of its placeholder. -/
theorem c8_exclude_restored (ops : List (Str → Str)) (excl : List Str)
    (content z0 : Str) (zs : List Str)
    (hexcl : excl.isEmpty = false)
    (hfold : ops.foldl (fun t f => f t)
        (extractTags excl kEXCLUDE content).1 = tokWeave 0 z0 zs)
    (hlen : (extractTags excl kEXCLUDE content).2.length = zs.length)
    (h0 : ∀ c ∈ z0, c ≠ '_')
    (hz : ∀ z ∈ zs, ∀ c ∈ z, c ≠ '_')
    (hv : ∀ v ∈ (extractTags excl kEXCLUDE content).2, ∀ c ∈ v, c ≠ '_' ∧ c ≠ '$') :
    processContent ops excl content =
      Except.ok (valWeave (extractTags excl kEXCLUDE content).2 0 z0 zs) := by
  rw [processContent]
  rw [if_neg (show ¬ (excl.isEmpty = true) from by
    rw [hexcl]; exact Bool.false_ne_true)]
  dsimp only
  rw [hfold, hlen, List.range_eq_range']
  have hval : ∀ x : Str, (validatePlaceholderRestoration x).isValid = true :=
    fun _ => rfl
  rw [hval, if_pos rfl]
  rw [exRestore_fold (extractTags excl kEXCLUDE content).2 hv zs 0 z0 h0 hz]

theorem c8_exclude_restored_witness :
    processContent [whitespaceOptimize []] [str "div"]
        (str "<p> a </p><div>  keep  it  </div>") =
      Except.ok (valWeave (extractTags [str "div"] kEXCLUDE
          (str "<p> a </p><div>  keep  it  </div>")).2 0 (str "<p>a</p>") [[]]) :=
  c8_exclude_restored [whitespaceOptimize []] [str "div"]
    (str "<p> a </p><div>  keep  it  </div>") (str "<p>a</p>") [[]]
    (by decide) (by decide) (by decide) (by decide) (by decide) (by decide)

theorem isDigit_ne_und {c : Char} (h : isDigit c = true) : c ≠ '_' := by
  intro he
  subst he
  simp [isDigit] at h

theorem tokAt_no_E {X : Str} :
    tokAt [kPRESERVE, kINLINE] ('_' :: '_' :: '_' :: 'E' :: X) = none := by
  rw [tokAt]
  rw [show ('_' :: '_' :: '_' :: 'E' :: X : Str) = str "___" ++ ('E' :: X) from rfl]
  rw [chop_self]
  simp only [Option.some_bind]
  rw [List.findSome?]
  have hP : chop (kPRESERVE ++ ['_']) ('E' :: X) = none := by
    rw [show kPRESERVE ++ ['_'] = 'P' :: (str "RESERVE" ++ ['_']) from by
      simp [kPRESERVE, str]]
    rw [chop, if_neg (by decide)]
  rw [hP]
  simp only [Option.none_bind]
  rw [List.findSome?]
  have hI : chop (kINLINE ++ ['_']) ('E' :: X) = none := by
    rw [show kINLINE ++ ['_'] = 'I' :: (str "NLINE" ++ ['_']) from by
      simp [kINLINE, str]]
    rw [chop, if_neg (by decide)]
  rw [hI]
  rfl

theorem tokAt_two_und {X : Str} :
    tokAt [kPRESERVE, kINLINE] ('_' :: '_' :: 'E' :: X) = none := by
  rw [tokAt]
  have hch : chop (str "___") ('_' :: '_' :: 'E' :: X) = none := by
    rw [show str "___" = ('_' :: '_' :: '_' :: ([] : Str)) from rfl]
    rw [chop, if_pos rfl, chop, if_pos rfl, chop, if_neg (by decide)]
  rw [hch]
  rfl

theorem tokAt_one_und {X : Str} :
    tokAt [kPRESERVE, kINLINE] ('_' :: 'E' :: X) = none := by
  rw [tokAt]
  have hch : chop (str "___") ('_' :: 'E' :: X) = none := by
    rw [show str "___" = ('_' :: '_' :: '_' :: ([] : Str)) from rfl]
    rw [chop, if_pos rfl, chop, if_neg (by decide)]
  rw [hch]
  rfl

theorem restoreGo_lit (pres inl : List Str) :
    ∀ (w : Str), (∀ c ∈ w, c ≠ '_') → ∀ (T : Str),
    restoreGo pres inl (w ++ T) = w ++ restoreGo pres inl T := by
  intro w
  induction w with
  | nil => intro _ T; simp
  | cons c w' ih =>
    intro hw T
    rw [List.cons_append,
      restoreGo_none pres inl (tokAt_none_head (hw c (List.mem_cons_self c w')))]
    rw [ih (fun d hd => hw d (List.mem_cons_of_mem c hd)) T]
    simp

/-- The restoration scan walks through an EXCLUDE placeholder character by
character without matching, provided the text after the token does not
complete a PRESERVE/INLINE token with the trailing underscores. -/
theorem restoreGo_exclude (pres inl : List Str) (n : Nat) (b : Str)
    (h1 : tokAt [kPRESERVE, kINLINE] ('_' :: b) = none)
    (h2 : tokAt [kPRESERVE, kINLINE] ('_' :: '_' :: b) = none)
    (h3 : tokAt [kPRESERVE, kINLINE] ('_' :: '_' :: '_' :: b) = none) :
    restoreGo pres inl (phTok kEXCLUDE n ++ b) =
      phTok kEXCLUDE n ++ restoreGo pres inl b := by
  have hdig : ∀ c ∈ natDigits n, c ≠ '_' := fun c hc =>
    isDigit_ne_und (natDigits_digits n c hc)
  obtain ⟨d0, ds, hnd⟩ : ∃ d0 ds, natDigits n = d0 :: ds := by
    cases hx : natDigits n with
    | nil => exact absurd hx (natDigits_ne_nil n)
    | cons d0 ds => exact ⟨d0, ds, rfl⟩
  have hd0 : d0 ≠ '_' := hdig d0 (by rw [hnd]; exact List.mem_cons_self _ _)
  have hsh : phTok kEXCLUDE n ++ b =
      '_' :: '_' :: '_' :: 'E' :: 'X' :: 'C' :: 'L' :: 'U' :: 'D' :: 'E' :: '_' ::
        (natDigits n ++ ('_' :: '_' :: '_' :: b)) := by
    rw [phTok]
    simp [str, kEXCLUDE]
  rw [hsh]
  rw [restoreGo_none pres inl tokAt_no_E]
  rw [restoreGo_none pres inl tokAt_two_und]
  rw [restoreGo_none pres inl tokAt_one_und]
  rw [show ('E' :: 'X' :: 'C' :: 'L' :: 'U' :: 'D' :: 'E' :: '_' ::
      (natDigits n ++ ('_' :: '_' :: '_' :: b)) : Str) =
    str "EXCLUDE" ++ ('_' :: (natDigits n ++ ('_' :: '_' :: '_' :: b))) from rfl]
  rw [restoreGo_lit pres inl (str "EXCLUDE") (by decide) _]
  have hmid : tokAt [kPRESERVE, kINLINE]
      ('_' :: (natDigits n ++ ('_' :: '_' :: '_' :: b))) = none := by
    rw [tokAt]
    have hch : chop (str "___")
        ('_' :: (natDigits n ++ ('_' :: '_' :: '_' :: b))) = none := by
      rw [hnd, List.cons_append]
      rw [show str "___" = ('_' :: '_' :: '_' :: ([] : Str)) from rfl]
      rw [chop, if_pos rfl, chop, if_neg (fun he => hd0 he.symm)]
    rw [hch]
    rfl
  rw [restoreGo_none pres inl hmid]
  rw [restoreGo_lit pres inl (natDigits n) hdig _]
  rw [restoreGo_none pres inl h3, restoreGo_none pres inl h2,
    restoreGo_none pres inl h1]
  rw [phTok]
  simp [str, kEXCLUDE]

theorem restore_exclude_clean (pres inl : List Str) (n : Nat) :
    ∀ (a b : Str), und3Free a = true → a.getLast? ≠ some '_' →
    tokAt [kPRESERVE, kINLINE] ('_' :: b) = none →
    tokAt [kPRESERVE, kINLINE] ('_' :: '_' :: b) = none →
    tokAt [kPRESERVE, kINLINE] ('_' :: '_' :: '_' :: b) = none →
    restoreGo pres inl (a ++ (phTok kEXCLUDE n ++ b)) =
      a ++ (phTok kEXCLUDE n ++ restoreGo pres inl b) := by
  intro a
  induction a with
  | nil =>
    intro b _ _ h1 h2 h3
    simp only [List.nil_append]
    exact restoreGo_exclude pres inl n b h1 h2 h3
  | cons c a' ih =>
    intro b hu hl h1 h2 h3
    have hnone : tokAt [kPRESERVE, kINLINE]
        (c :: (a' ++ (phTok kEXCLUDE n ++ b))) = none := by
      cases ht : tokAt [kPRESERVE, kINLINE]
          (c :: (a' ++ (phTok kEXCLUDE n ++ b))) with
      | none => rfl
      | some p =>
        exfalso
        obtain ⟨k, ds, rest⟩ := p
        obtain ⟨hsp, -, -⟩ := tokAt_split ht
        have hshp : str "___" ++ (k ++ ('_' :: (ds ++ (str "___" ++ rest)))) =
            '_' :: '_' :: '_' :: (k ++ ('_' :: (ds ++ (str "___" ++ rest)))) := rfl
        rw [hshp] at hsp
        have hc : c = '_' := (List.cons.inj hsp).1
        have hrest := (List.cons.inj hsp).2
        cases a' with
        | nil =>
          apply hl
          simp [hc]
        | cons d a'' =>
          simp only [List.cons_append] at hrest
          have hd : d = '_' := (List.cons.inj hrest).1
          have hrest2 := (List.cons.inj hrest).2
          cases a'' with
          | nil =>
            exact @getLast?_ne_of_append [c, d] [] '_' hl (by simp [hc, hd]) rfl
          | cons e a''' =>
            simp only [List.cons_append] at hrest2
            have he : e = '_' := (List.cons.inj hrest2).1
            exact und3Free_no_split hu [] a''' (by rw [hc, hd, he]; rfl)
    rw [List.cons_append, restoreGo_none pres inl hnone]
    have hu' : und3Free a' = true := und3Free_tail hu
    have hl' : a'.getLast? ≠ some '_' := by
      cases a' with
      | nil => simp
      | cons d a'' =>
        intro hcon
        apply hl
        rw [List.getLast?_cons_cons]
        exact hcon
    rw [ih b hu' hl' h1 h2 h3]
    simp

theorem tokAt_self_exclude (i : Nat) (b : Str) :
    tokAt [kPRESERVE, kINLINE, kEXCLUDE] (phTok kEXCLUDE i ++ b) =
      some (kEXCLUDE, natDigits i, b) := by
  have hsh : phTok kEXCLUDE i ++ b =
      str "___" ++ ((kEXCLUDE ++ ['_']) ++ (natDigits i ++ ('_' :: '_' :: '_' :: b))) := by
    rw [phTok]
    simp [str]
  rw [tokAt, hsh, chop_self]
  simp only [Option.some_bind]
  have hdig := natDigits_digits i
  have htw := takeWhile_all_append isDigit (natDigits i) '_' ('_' :: '_' :: b)
    hdig (by decide)
  rw [List.findSome?]
  have hP : chop (kPRESERVE ++ ['_'])
      ((kEXCLUDE ++ ['_']) ++ (natDigits i ++ ('_' :: '_' :: '_' :: b))) = none := by
    rw [show (kEXCLUDE ++ ['_']) ++ (natDigits i ++ ('_' :: '_' :: '_' :: b)) =
      'E' :: ((str "XCLUDE" ++ ['_']) ++ (natDigits i ++ ('_' :: '_' :: '_' :: b)))
      from by simp [kEXCLUDE, str]]
    rw [show kPRESERVE ++ ['_'] = 'P' :: (str "RESERVE" ++ ['_']) from by
      simp [kPRESERVE, str]]
    rw [chop, if_neg (by decide)]
  rw [hP]
  simp only [Option.none_bind]
  rw [List.findSome?]
  have hI : chop (kINLINE ++ ['_'])
      ((kEXCLUDE ++ ['_']) ++ (natDigits i ++ ('_' :: '_' :: '_' :: b))) = none := by
    rw [show (kEXCLUDE ++ ['_']) ++ (natDigits i ++ ('_' :: '_' :: '_' :: b)) =
      'E' :: ((str "XCLUDE" ++ ['_']) ++ (natDigits i ++ ('_' :: '_' :: '_' :: b)))
      from by simp [kEXCLUDE, str]]
    rw [show kINLINE ++ ['_'] = 'I' :: (str "NLINE" ++ ['_']) from by
      simp [kINLINE, str]]
    rw [chop, if_neg (by decide)]
  rw [hI]
  simp only [Option.none_bind]
  rw [List.findSome?]
  rw [show (kEXCLUDE ++ ['_']) ++ (natDigits i ++ ('_' :: '_' :: '_' :: b)) =
    (kEXCLUDE ++ ['_']) ++ (natDigits i ++ ('_' :: '_' :: '_' :: b)) from rfl]
  rw [chop_self, Option.some_bind]
  rw [htw.1, htw.2]
  have hne : (natDigits i).isEmpty = false := by
    cases hnd : natDigits i with
    | nil => exact absurd hnd (natDigits_ne_nil i)
    | cons x xs => rfl
  rw [hne]
  simp only [Bool.false_eq_true, if_false]
  have hch : chop (str "___") ('_' :: '_' :: '_' :: b) = some b := chop_self (str "___") b
  rw [hch]
  rfl

theorem containsTok_hit {kinds : List Str} {c : Char} {cs : Str}
    (h : (tokAt kinds (c :: cs)).isSome = true) :
    ∀ x : Str, containsTok kinds (x ++ (c :: cs)) = true := by
  intro x
  induction x with
  | nil =>
    rw [List.nil_append, containsTok, h]
    simp
  | cons d x' ih =>
    rw [List.cons_append, containsTok, ih]
    simp

/-- An EXCLUDE placeholder anywhere in a match's content trips the inline
callback's skip pattern. -/
theorem skipHit_exclude (i : Nat) (x y : Str) :
    skipHit (x ++ (phTok kEXCLUDE i ++ y)) = true := by
  rw [skipHit]
  cases hpy : phTok kEXCLUDE i ++ y with
  | nil =>
    exfalso
    have h0 : phTok kEXCLUDE i = [] := (List.append_eq_nil.mp hpy).1
    rw [phTok] at h0
    simp [str] at h0
  | cons c cs =>
    have htok := tokAt_self_exclude i y
    rw [hpy] at htok
    exact containsTok_hit (by rw [htok]; rfl) x

/-- C10 amended: (i) whenever the PRESERVE/INLINE guard does not fire the
core takes the full processing path; (ii) an EXCLUDE placeholder in a
match's content trips the skip pattern; (iii) a skipped match is emitted
verbatim with no record entry; (iv) an EXCLUDE token survives the
restoration scan byte-identically provided its surroundings are free of
placeholder-grammar fragments: no triple underscore and no trailing
underscore before it, and no PRESERVE/INLINE-completing text after it. -/
theorem c10_exclude_tokens :
    (∀ (s : Str) (excl : List Str), guardHit s = false →
      whitespaceOptimize excl s =
        restoreGo (extractTags (preserveBase ++ excl) kPRESERVE s).2
          (inlineLoop inlineTagsL
            (extractTags (preserveBase ++ excl) kPRESERVE s).1 []).2
          (blockStep (inlineLoop inlineTagsL
            (extractTags (preserveBase ++ excl) kPRESERVE s).1 []).1)) ∧
    (∀ (i : Nat) (x y : Str), skipHit (x ++ (phTok kEXCLUDE i ++ y)) = true) ∧
    (∀ (tags : List Str) (c : Char) (cs : Str) (m : IM) (acc : List Str),
      tryInlineAt tags (c :: cs) = some m →
      skipHit m.content = true →
      inlinePass tags (c :: cs) acc =
        (m.lead ++ m.openT ++ m.content ++ m.closeT ++ m.trail ++
          (inlinePass tags m.rest acc).1, (inlinePass tags m.rest acc).2)) ∧
    (∀ (pres inl : List Str) (n : Nat) (a b : Str),
      und3Free a = true → a.getLast? ≠ some '_' →
      tokAt [kPRESERVE, kINLINE] ('_' :: b) = none →
      tokAt [kPRESERVE, kINLINE] ('_' :: '_' :: b) = none →
      tokAt [kPRESERVE, kINLINE] ('_' :: '_' :: '_' :: b) = none →
      restoreGo pres inl (a ++ (phTok kEXCLUDE n ++ b)) =
        a ++ (phTok kEXCLUDE n ++ restoreGo pres inl b)) := by
  refine ⟨?_, skipHit_exclude, ?_, ?_⟩
  · intro s excl hg
    rw [whitespaceOptimize, if_neg (by rw [hg]; exact Bool.false_ne_true)]
  · intro tags c cs m acc him hskip
    exact inlinePass_some_skip acc him hskip
  · intro pres inl n a b hu hl h1 h2 h3
    exact restore_exclude_clean pres inl n a b hu hl h1 h2 h3
